import Mathlib

/-!
Verification development for the local-docs-mcp repository (Go).

The definitions below are a shallow embedding of the Go source:
pure Go functions become Lean functions, Go float64 score arithmetic is
modelled exactly over the rationals, Go machine integers become Int/Nat,
filesystem access becomes explicit function parameters, and fallible Go
functions return Except/Option.  Go byte lengths of strings are modelled
by summing the UTF-8 sizes of the characters, which coincides with Go's
len() on every valid UTF-8 string.  Character classification helpers
(toLower, isUpper, isLower, case folding) are exact on ASCII, which covers
every concrete input used in the theorems below.

Rational arithmetic is written with the executable wrappers qmul, qdiv,
qadd and mkRat-built constants (the library field operations on Rat are
irreducible and cannot be evaluated by the kernel); the theorems
qmul_eq, qdiv_eq, qadd_eq below identify them with the field operations.
String scanning helpers are likewise written over character lists so that
every definition evaluates by kernel reduction.
-/

/-! ## Exact rational arithmetic wrappers -/

/-- Rational multiplication via mkRat (definitionally evaluable). -/
def qmul (a b : ℚ) : ℚ := mkRat (a.num * b.num) (a.den * b.den)

/-- Rational inverse via mkRat (definitionally evaluable). -/
def qinv (b : ℚ) : ℚ :=
  if 0 ≤ b.num then mkRat (b.den : Int) b.num.natAbs
  else mkRat (-(b.den : Int)) b.num.natAbs

/-- Rational division via mkRat (definitionally evaluable). -/
def qdiv (a b : ℚ) : ℚ := qmul a (qinv b)

/-- Rational addition via mkRat (definitionally evaluable). -/
def qadd (a b : ℚ) : ℚ := mkRat (a.num * b.den + b.num * a.den) (a.den * b.den)

/-- A natural number as a rational (definitionally evaluable). -/
def qofNat (n : Nat) : ℚ := mkRat (n : Int) 1

/-- An integer as a rational (definitionally evaluable). -/
def qofInt (n : Int) : ℚ := mkRat n 1

/-! ## Go string helpers (strings package), over character lists -/

/-- Contiguous-substring test on character lists. -/
def listContains : List Char → List Char → Bool
  | s, sub =>
    match s with
    | [] => sub.isEmpty
    | _ :: rest => sub.isPrefixOf s || listContains rest sub

/-- Embedding of Go strings.Contains: sub occurs as a contiguous substring of s. -/
def goContains (s sub : String) : Bool :=
  listContains s.toList sub.toList

/-- Embedding of Go strings.HasPrefix. -/
def goStartsWith (s pre : String) : Bool :=
  pre.toList.isPrefixOf s.toList

/-- Embedding of Go strings.HasSuffix. -/
def goEndsWith (s suf : String) : Bool :=
  suf.toList.isSuffixOf s.toList

/-- Embedding of Go len(s) for a string: number of UTF-8 bytes. -/
def goByteLen (s : String) : Nat :=
  (s.toList.map Char.utf8Size).sum

/-- Embedding of Go strings.ToLower (exact on ASCII). -/
def goToLower (s : String) : String :=
  String.mk (s.toList.map Char.toLower)

/-- Embedding of strings.ReplaceAll(s, " ", "-") as used on search queries. -/
def spacesToHyphens (s : String) : String :=
  String.mk (s.toList.map (fun c => if c = ' ' then '-' else c))

/-- Query normalization performed by searchDocs: lowercase, spaces to hyphens. -/
def normalizeQuery (q : String) : String :=
  spacesToHyphens (goToLower q)

/-- Split a character list at a separator character, accumulator-style. -/
def splitCharAux (sep : Char) : List Char → List Char → List String
  | [], acc => [String.mk acc.reverse]
  | c :: rest, acc =>
    if c = sep then String.mk acc.reverse :: splitCharAux sep rest []
    else splitCharAux sep rest (c :: acc)

/-- Embedding of Go strings.Split(s, sep) for a one-character separator. -/
def goSplitChar (s : String) (sep : Char) : List String :=
  splitCharAux sep s.toList []

/-- Embedding of Go strings.TrimSpace (exact on ASCII whitespace). -/
def goTrim (s : String) : String :=
  String.mk (((s.toList.dropWhile Char.isWhitespace).reverse.dropWhile
    Char.isWhitespace).reverse)

/-! ## Embedding of github.com/sahilm/fuzzy v0.1.1 scoring

The repository calls fuzzy.Find(query, []string{name}) on a single
candidate and reads matches[0].Score.  fuzzyMatchScore returns some score
when the pattern matches name as a subsequence (the only case fuzzy.Find
produces a match for the single candidate), none otherwise.  The loop
below mirrors the per-candidate loop of FindFrom, including the bonus and
penalty constants and the commit logic driven by the upcoming
pattern/candidate characters. -/

/-- Separator runes of sahilm/fuzzy. -/
def fzIsSeparator (c : Char) : Bool :=
  c = '/' || c = '-' || c = '_' || c = ' ' || c = '.' || c = '\\'

/-- Embedding of sahilm/fuzzy equalFold (exact on ASCII; rune 0 only equals itself). -/
def fzEqualFold (x y : Char) : Bool :=
  if x = y then true
  else
    let tr := max x.toNat y.toNat
    let sr := min x.toNat y.toNat
    if tr < 128 then
      decide (65 ≤ sr) && decide (sr ≤ 90) && decide (tr = sr + 32)
    else
      x.toLower = y.toLower

/-- Loop state of the per-candidate match loop of fuzzy.FindFrom. -/
structure FzState where
  score : Int
  matchedCount : Nat
  lastMatch : Int
  patternIndex : Nat
  bestScore : Int
  matchedIndex : Int
  currAdjacent : Int
  last : Char
  lastIndex : Int
  deriving Repr

/-- Initial loop state (Go zero values; bestScore and matchedIndex start at -1). -/
def fzInit : FzState :=
  { score := 0, matchedCount := 0, lastMatch := 0, patternIndex := 0,
    bestScore := -1, matchedIndex := -1, currAdjacent := 0,
    last := Char.ofNat 0, lastIndex := 0 }

/-- One candidate character step of fuzzy.FindFrom's inner loop.
j is the byte index of c in the candidate string; rest holds the
remaining characters after c. -/
def fzStep (pat : Array Char) (c : Char) (rest : List Char) (j : Int) (st : FzState) : FzState :=
  -- candidate match processing
  let st1 :=
    if h : st.patternIndex < pat.size then
      if fzEqualFold c (pat.get ⟨st.patternIndex, h⟩) then
        let s1 : Int := if j = 0 then 10 else 0
        let s2 : Int := if st.last.isLower && c.isUpper then s1 + 20 else s1
        let s3 : Int := if j ≠ 0 && fzIsSeparator st.last then s2 + 20 else s2
        let bonus : Int :=
          if st.matchedCount > 0 then
            (if st.lastMatch = st.lastIndex then st.currAdjacent + 5 else 0)
          else 0
        let s4 := s3 + bonus
        let adj := if st.matchedCount > 0 then st.currAdjacent + bonus else st.currAdjacent
        if s4 > st.bestScore then
          { st with bestScore := s4, matchedIndex := j, currAdjacent := adj }
        else
          { st with currAdjacent := adj }
      else st
    else st
  -- upcoming pattern / candidate characters
  let nextc : Char := match rest with | [] => Char.ofNat 0 | c2 :: _ => c2
  let nextp : Char :=
    if h : st1.patternIndex + 1 < pat.size then pat.get ⟨st1.patternIndex + 1, h⟩
    else Char.ofNat 0
  -- commit the best candidate for the current pattern character
  let st2 :=
    if fzEqualFold nextp nextc || nextc = Char.ofNat 0 then
      if st1.matchedIndex > -1 then
        let leadPen : Int :=
          if st1.matchedCount = 0 then max (st1.matchedIndex * (-5)) (-15) else 0
        { st1 with score := st1.score + leadPen + st1.bestScore,
                   matchedCount := st1.matchedCount + 1,
                   lastMatch := st1.matchedIndex,
                   bestScore := -1,
                   patternIndex := st1.patternIndex + 1 }
      else st1
    else st1
  { st2 with last := c, lastIndex := j }

/-- The per-candidate loop of fuzzy.FindFrom over the candidate characters. -/
def fzLoop (pat : Array Char) : List Char → Int → FzState → FzState
  | [], _, st => st
  | c :: rest, j, st => fzLoop pat rest (j + (c.utf8Size : Int)) (fzStep pat c rest j st)

/-- Embedding of fuzzy.Find(pattern, []string{str}): the raw match score when
pattern matches str as a subsequence, none otherwise. -/
def fuzzyMatchScore (pattern str : String) : Option Int :=
  if pattern = "" then none
  else
    let pat := pattern.toList.toArray
    let fin := fzLoop pat str.toList 0 fzInit
    let total := fin.score + ((fin.matchedCount : Int) - (goByteLen str : Int))
    if fin.matchedCount = pat.size then some total else none

/-! ## Score calculation (app/server/server.go calculateScore) -/

/-- fuzzyThreshold constant of the server package (0.3). -/
def fuzzyThreshold : ℚ := mkRat 3 10

/-- maxSearchResults constant of the server package. -/
def maxSearchResults : Nat := 10

/-- Embedding of Server.calculateScore: exact match scores 1.0, substring
match scores 0.8 scaled by query/name byte-length ratio, otherwise an
accepted fuzzy match (normalized score at least the 0.3 threshold) scores
the normalized score scaled by 0.7.  Go float64 arithmetic is modelled
exactly over the rationals. -/
def calculateScore (query normalizedName : String) : ℚ :=
  if normalizedName = query || normalizedName = query ++ ".md" then 1
  else if goContains normalizedName query then
    qmul (mkRat 4 5) (qdiv (qofNat (goByteLen query)) (qofNat (goByteLen normalizedName)))
  else
    match fuzzyMatchScore query normalizedName with
    | some raw =>
      if raw > 0 then
        let fs : ℚ := min (qdiv (qofInt raw) (qofInt 100)) 1
        if fuzzyThreshold ≤ fs then qmul fs (mkRat 7 10) else 0
      else 0
    | none => 0

/-! ## Data model (app/scanner FileInfo, app/server output types) -/

/-- Embedding of scanner.Source. -/
inductive DocSource
  | commands
  | projectDocs
  | projectRoot
  deriving DecidableEq, Repr

/-- String value of each scanner.Source constant. -/
def sourceStr : DocSource → String
  | .commands => "commands"
  | .projectDocs => "project-docs"
  | .projectRoot => "project-root"

/-- Embedding of scanner.FileInfo. -/
structure FileInfo where
  Name : String
  Filename : String
  Normalized : String
  Source : DocSource
  Path : String
  Size : Int
  Description : String
  Tags : List String
  deriving DecidableEq, Repr

/-- Embedding of server.SearchMatch. -/
structure SearchMatch where
  Path : String
  Name : String
  Score : ℚ
  Source : String
  deriving DecidableEq, Repr

/-- Embedding of server.SearchOutput. -/
structure SearchOutput where
  Results : List SearchMatch
  Total : Nat
  deriving DecidableEq, Repr

/-! ## Embedding of Go sort.Slice (Go 1.25 pdqsort over a less/swap pair)

searchDocs sorts its matches with sort.Slice, whose comparator reads only
the two compared elements, so the index-based Go code is modelled by an
element comparator less applied at explicit indices.  Loops that do not
recurse structurally carry explicit fuel; every entry point supplies fuel
that exceeds the number of iterations the Go code can perform, so the
embedding computes exactly the Go result. -/

/-- Swap two positions of an array (identity when an index is out of range;
the Go code never swaps out of range). -/
def aswap {α : Type} (xs : Array α) (i j : Nat) : Array α :=
  if h : i < xs.size ∧ j < xs.size then xs.swap ⟨i, h.1⟩ ⟨j, h.2⟩ else xs

/-- data.Less(i, j) of the lessSwap pair (false when out of range;
the Go code never compares out of range). -/
def altIdx {α : Type} (less : α → α → Bool) (xs : Array α) (i j : Nat) : Bool :=
  match xs.get? i, xs.get? j with
  | some x, some y => less x y
  | _, _ => false

/-- Inner loop of insertionSortLessFunc: shift element j left while smaller. -/
def insSortInner {α : Type} (less : α → α → Bool) (a : Nat) : Array α → Nat → Array α
  | xs, 0 => xs
  | xs, j+1 =>
    if a < j+1 && altIdx less xs (j+1) j then insSortInner less a (aswap xs (j+1) j) j
    else xs

/-- Outer loop of insertionSortLessFunc (fuel-bounded iteration of i). -/
def insSortOuter {α : Type} (less : α → α → Bool) (a b : Nat) : Nat → Array α → Nat → Array α
  | 0, xs, _ => xs
  | fuel+1, xs, i =>
    if i < b then insSortOuter less a b fuel (insSortInner less a xs i) (i+1) else xs

/-- Embedding of insertionSortLessFunc(data, a, b). -/
def insertionSortGo {α : Type} (less : α → α → Bool) (xs : Array α) (a b : Nat) : Array α :=
  insSortOuter less a b b xs (a+1)

/-- The child index siftDownLessFunc descends to: the larger of the two
children of root (both when present). -/
def siftChild {α : Type} (less : α → α → Bool) (first hi : Nat) (xs : Array α) (root : Nat) : Nat :=
  if 2*root + 2 < hi && altIdx less xs (first + (2*root + 1)) (first + (2*root + 2)) then
    2*root + 2
  else 2*root + 1

/-- Embedding of siftDownLessFunc(data, root, hi, first), fuel-bounded. -/
def siftDownGo {α : Type} (less : α → α → Bool) (first hi : Nat) : Nat → Array α → Nat → Array α
  | 0, xs, _ => xs
  | fuel+1, xs, root =>
    if 2*root + 1 < hi then
      if !(altIdx less xs (first+root) (first + siftChild less first hi xs root)) then xs
      else
        siftDownGo less first hi fuel
          (aswap xs (first+root) (first + siftChild less first hi xs root))
          (siftChild less first hi xs root)
    else xs

/-- Heap-construction loop of heapSortLessFunc; processes i = i1-1 down to 0. -/
def heapBuild {α : Type} (less : α → α → Bool) (first hi : Nat) (xs : Array α) : Nat → Array α
  | 0 => xs
  | i+1 => heapBuild less first hi (siftDownGo less first hi hi xs i) i

/-- Pop loop of heapSortLessFunc; processes i = i1-1 down to 0. -/
def heapPop {α : Type} (less : α → α → Bool) (first : Nat) (xs : Array α) : Nat → Array α
  | 0 => xs
  | i+1 => heapPop less first (siftDownGo less first i i (aswap xs first (first+i)) 0) i

/-- Embedding of heapSortLessFunc(data, a, b). -/
def heapSortGo {α : Type} (less : α → α → Bool) (xs : Array α) (a b : Nat) : Array α :=
  heapPop less a (heapBuild less a (b - a) xs (((b - a)-1)/2 + 1)) (b - a)

/-- Embedding of reverseRangeLessFunc's loop (i, j move inward), fuel-bounded. -/
def reverseRangeGo {α : Type} : Nat → Array α → Nat → Nat → Array α
  | 0, xs, _, _ => xs
  | fuel+1, xs, i, j => if i < j then reverseRangeGo fuel (aswap xs i j) (i+1) (j-1) else xs

/-- Embedding of order2LessFunc: index pair ordered by the data, with swap count. -/
def order2Go {α : Type} (less : α → α → Bool) (xs : Array α) (a b swaps : Nat) : Nat × Nat × Nat :=
  if altIdx less xs b a then (b, a, swaps+1) else (a, b, swaps)

/-- Embedding of medianLessFunc: median index of three, with swap count. -/
def medianGo {α : Type} (less : α → α → Bool) (xs : Array α) (a b c swaps : Nat) : Nat × Nat :=
  let (a1, b1, s1) := order2Go less xs a b swaps
  let (b2, _, s2) := order2Go less xs b1 c s1
  let (_, b3, s3) := order2Go less xs a1 b2 s2
  (b3, s3)

/-- Embedding of medianAdjacentLessFunc. -/
def medianAdjacentGo {α : Type} (less : α → α → Bool) (xs : Array α) (a swaps : Nat) : Nat × Nat :=
  medianGo less xs (a-1) a (a+1) swaps

/-- Sortedness hint returned by choosePivotLessFunc. -/
inductive SortHint
  | unknown
  | increasing
  | decreasing
  deriving DecidableEq, Repr

/-- Embedding of choosePivotLessFunc(data, a, b). -/
def choosePivotGo {α : Type} (less : α → α → Bool) (xs : Array α) (a b : Nat) : Nat × SortHint :=
  let l := b - a
  let i0 := a + l/4*1
  let j0 := a + l/4*2
  let k0 := a + l/4*3
  if 8 ≤ l then
    let (i1, j1, k1, s1) :=
      if 50 ≤ l then
        let (i', sa) := medianAdjacentGo less xs i0 0
        let (j', sb) := medianAdjacentGo less xs j0 sa
        let (k', sc) := medianAdjacentGo less xs k0 sb
        (i', j', k', sc)
      else (i0, j0, k0, 0)
    let (j2, s2) := medianGo less xs i1 j1 k1 s1
    if s2 = 0 then (j2, SortHint.increasing)
    else if s2 = 12 then (j2, SortHint.decreasing)
    else (j2, SortHint.unknown)
  else (j0, SortHint.increasing)

/-- Left-shifting loop of partialInsertionSortLessFunc. -/
def pinsLeft {α : Type} (less : α → α → Bool) (a : Nat) : Array α → Nat → Array α
  | xs, 0 => xs
  | xs, j+1 =>
    if a + 1 ≤ j+1 && altIdx less xs (j+1) j then pinsLeft less a (aswap xs (j+1) j) j
    else xs

/-- Right-shifting loop of partialInsertionSortLessFunc, fuel-bounded. -/
def pinsRight {α : Type} (less : α → α → Bool) (b : Nat) : Nat → Array α → Nat → Array α
  | 0, xs, _ => xs
  | fuel+1, xs, j =>
    if j < b then
      if altIdx less xs j (j-1) then pinsRight less b fuel (aswap xs j (j-1)) (j+1) else xs
    else xs

/-- Scan of partialInsertionSortLessFunc advancing i past in-order elements,
fuel-bounded. -/
def pinsAdvance {α : Type} (less : α → α → Bool) (xs : Array α) (b : Nat) : Nat → Nat → Nat
  | 0, i => i
  | fuel+1, i =>
    if i < b then
      if altIdx less xs i (i-1) then i else pinsAdvance less xs b fuel (i+1)
    else i

/-- Step loop of partialInsertionSortLessFunc (at most maxSteps = 5 steps). -/
def partInsLoop {α : Type} (less : α → α → Bool) (a b : Nat) (xs : Array α) (i : Nat) :
    Nat → Array α × Bool
  | 0 => (xs, false)
  | steps+1 =>
    let i' := pinsAdvance less xs b b i
    if i' = b then (xs, true)
    else if b - a < 50 then (xs, false)
    else
      let xs1 := aswap xs i' (i'-1)
      let xs2 := if 2 ≤ i' - a then pinsLeft less a xs1 (i'-1) else xs1
      let xs3 := if 2 ≤ b - i' then pinsRight less b b xs2 (i'+1) else xs2
      partInsLoop less a b xs3 i' steps

/-- Embedding of partialInsertionSortLessFunc(data, a, b). -/
def partInsSortGo {α : Type} (less : α → α → Bool) (xs : Array α) (a b : Nat) : Array α × Bool :=
  partInsLoop less a b xs (a+1) 5

/-- Number of bits of n, as Go bits.Len. -/
def bitsLen (n : Nat) : Nat :=
  if n = 0 then 0 else Nat.log2 n + 1

/-- One step of Go sort's xorshift generator (64-bit). -/
def xorshiftNext (r : Nat) : Nat :=
  let r1 := (r ^^^ (r <<< 13)) % 2^64
  let r2 := (r1 ^^^ (r1 >>> 7)) % 2^64
  (r2 ^^^ (r2 <<< 17)) % 2^64

/-- Embedding of breakPatternsLessFunc(data, a, b): swaps three elements near
the middle to pseudo-random positions, seeded deterministically with the
range length. -/
def breakPatternsGo {α : Type} (xs : Array α) (a b : Nat) : Array α :=
  let length := b - a
  if 8 ≤ length then
    let modulus := 2^(bitsLen length)
    let idx := a + (length/4)*2 - 1
    let r1 := xorshiftNext length
    let o1 := let t := r1 % modulus; if length ≤ t then t - length else t
    let xs1 := aswap xs idx (a + o1)
    let r2 := xorshiftNext r1
    let o2 := let t := r2 % modulus; if length ≤ t then t - length else t
    let xs2 := aswap xs1 (idx + 1) (a + o2)
    let r3 := xorshiftNext r2
    let o3 := let t := r3 % modulus; if length ≤ t then t - length else t
    aswap xs2 (idx + 2) (a + o3)
  else xs

/-- Forward scan of partitionLessFunc: advance i while data[i] < pivot (stored at a). -/
def partLoopInc {α : Type} (less : α → α → Bool) (xs : Array α) (a j : Nat) (i : Nat) :
    Nat → Nat
  | 0 => i
  | fuel+1 => if i ≤ j && altIdx less xs i a then partLoopInc less xs a j (i+1) fuel else i

/-- Backward scan of partitionLessFunc: retreat j while not data[j] < pivot. -/
def partLoopDec {α : Type} (less : α → α → Bool) (xs : Array α) (a i : Nat) (j : Nat) :
    Nat → Nat
  | 0 => j
  | fuel+1 => if i ≤ j && !(altIdx less xs j a) then partLoopDec less xs a i (j-1) fuel else j

/-- Main exchange loop of partitionLessFunc, returning the final j. -/
def partMainLoop {α : Type} (less : α → α → Bool) (a b : Nat) (xs : Array α) (i j : Nat) :
    Nat → Array α × Nat
  | 0 => (xs, j)
  | fuel+1 =>
    let i' := partLoopInc less xs a j i (b+1)
    let j' := partLoopDec less xs a i' j (b+1)
    if j' < i' then (xs, j')
    else partMainLoop less a b (aswap xs i' j') (i'+1) (j'-1) fuel

/-- Embedding of partitionLessFunc(data, a, b, pivot):
returns (array, newpivot, alreadyPartitioned). -/
def partitionGo {α : Type} (less : α → α → Bool) (xs : Array α) (a b pivot : Nat) :
    Array α × Nat × Bool :=
  let xs0 := aswap xs a pivot
  let i1 := partLoopInc less xs0 a (b-1) (a+1) (b+1)
  let j1 := partLoopDec less xs0 a i1 (b-1) (b+1)
  if j1 < i1 then (aswap xs0 j1 a, j1, true)
  else
    let pm := partMainLoop less a b (aswap xs0 i1 j1) (i1+1) (j1-1) (b+1)
    (aswap pm.1 pm.2 a, pm.2, false)

/-- Forward scan of partitionEqualLessFunc: advance i while not pivot < data[i]. -/
def peqInc {α : Type} (less : α → α → Bool) (xs : Array α) (a j : Nat) (i : Nat) :
    Nat → Nat
  | 0 => i
  | fuel+1 => if i ≤ j && !(altIdx less xs a i) then peqInc less xs a j (i+1) fuel else i

/-- Backward scan of partitionEqualLessFunc: retreat j while pivot < data[j]. -/
def peqDec {α : Type} (less : α → α → Bool) (xs : Array α) (a i : Nat) (j : Nat) :
    Nat → Nat
  | 0 => j
  | fuel+1 => if i ≤ j && altIdx less xs a j then peqDec less xs a i (j-1) fuel else j

/-- Exchange loop of partitionEqualLessFunc, returning the final i. -/
def peqLoop {α : Type} (less : α → α → Bool) (a b : Nat) (xs : Array α) (i j : Nat) :
    Nat → Array α × Nat
  | 0 => (xs, i)
  | fuel+1 =>
    let i' := peqInc less xs a j i (b+1)
    let j' := peqDec less xs a i' j (b+1)
    if j' < i' then (xs, i')
    else peqLoop less a b (aswap xs i' j') (i'+1) (j'-1) fuel

/-- Embedding of partitionEqualLessFunc(data, a, b, pivot): returns (array, newpivot). -/
def partitionEqualGo {α : Type} (less : α → α → Bool) (xs : Array α) (a b pivot : Nat) :
    Array α × Nat :=
  peqLoop less a b (aswap xs a pivot) (a+1) (b-1) (b+1)

/-- The pattern-breaking step of a pdqsort iteration: when the previous
partitioning was imbalanced, scramble and spend one limit credit. -/
def pdqPre {α : Type} (wasBalanced : Bool) (xs : Array α) (a b limit : Nat) : Array α × Nat :=
  if !wasBalanced then (breakPatternsGo xs a b, limit - 1) else (xs, limit)

/-- The reversal step of a pdqsort iteration on a decreasing hint: reverse
the range, relocate the pivot, turn the hint increasing. -/
def pdqReverse {α : Type} (hint0 : SortHint) (pivot0 : Nat) (xs1 : Array α) (a b : Nat) :
    Array α × Nat × SortHint :=
  if hint0 = SortHint.decreasing then
    (reverseRangeGo b xs1 a (b-1), (b-1) - (pivot0 - a), SortHint.increasing)
  else (xs1, pivot0, hint0)

/-- The likely-sorted shortcut of a pdqsort iteration: attempt a partial
insertion sort when both flags are set and the hint is increasing. -/
def pdqMaybeIns {α : Type} (less : α → α → Bool) (wb wp : Bool) (hint1 : SortHint)
    (xs2 : Array α) (a b : Nat) : Array α × Bool :=
  if wb && wp && decide (hint1 = SortHint.increasing) then partInsSortGo less xs2 a b
  else (xs2, false)

/-- Embedding of pdqsortLessFunc(data, a, b, limit).  wasBalanced and
wasPartitioned are the loop-carried flags of the Go implementation (both
start true); fuel bounds the loop/recursion depth and is always supplied
large enough that it never runs out. -/
def pdqsortGo {α : Type} (less : α → α → Bool) :
    Nat → Array α → Nat → Nat → Nat → Bool → Bool → Array α
  | 0, xs, _, _, _, _, _ => xs
  | fuel+1, xs, a, b, limit, wasBalanced, wasPartitioned =>
    let length := b - a
    if length ≤ 12 then insertionSortGo less xs a b
    else if limit = 0 then heapSortGo less xs a b
    else
      match pdqPre wasBalanced xs a b limit with
      | (xs1, limit1) =>
        match choosePivotGo less xs1 a b with
        | (pivot0, hint0) =>
          match pdqReverse hint0 pivot0 xs1 a b with
          | (xs2, pivot1, hint1) =>
            match pdqMaybeIns less wasBalanced wasPartitioned hint1 xs2 a b with
            | (xs3, done) =>
              if done then xs3
              else if decide (0 < a) && !(altIdx less xs3 (a-1) pivot1) then
                match partitionEqualGo less xs3 a b pivot1 with
                | (xs4, mid) => pdqsortGo less fuel xs4 mid b limit1 wasBalanced wasPartitioned
              else
                match partitionGo less xs3 a b pivot1 with
                | (xs5, mid, alreadyPartitioned) =>
                  let wasBalanced' := decide (length / 8 ≤ min (mid - a) (b - mid))
                  if mid - a < b - mid then
                    pdqsortGo less fuel (pdqsortGo less fuel xs5 a mid limit1 true true)
                      (mid+1) b limit1 wasBalanced' alreadyPartitioned
                  else
                    pdqsortGo less fuel (pdqsortGo less fuel xs5 (mid+1) b limit1 true true)
                      a mid limit1 wasBalanced' alreadyPartitioned

/-- Embedding of sort.Slice(x, less): pdqsort over the whole array with
limit = bits.Len(len(x)). -/
def goSortSlice {α : Type} (less : α → α → Bool) (xs : Array α) : Array α :=
  pdqsortGo less (xs.size + 1) xs 0 xs.size (bitsLen xs.size) true true

/-! ## Search (app/server/server.go searchDocs) -/

/-- Comparator used by searchDocs: matches[i].Score > matches[j].Score. -/
def searchLess (m1 m2 : SearchMatch) : Bool :=
  m2.Score < m1.Score

/-- The match-collection loop of searchDocs: one SearchMatch per file with
a positive score, in file order. -/
def searchMatches (files : List FileInfo) (nq : String) : List SearchMatch :=
  files.filterMap (fun f =>
    let score := calculateScore nq f.Normalized
    if 0 < score then
      some { Path := f.Filename, Name := f.Name, Score := score,
             Source := sourceStr f.Source : SearchMatch }
    else none)

/-- Embedding of Server.searchDocs restricted to its pure core: the scanner
result is passed in as the file list and the context is not cancelled (the
cancelled and scan-error paths return errors and produce no output). -/
def searchDocs (files : List FileInfo) (query : String) : SearchOutput :=
  if query = "" then { Results := [], Total := 0 }
  else
    let ms := searchMatches files (normalizeQuery query)
    let sorted := (goSortSlice searchLess ms.toArray).toList
    let total := sorted.length
    let results := if maxSearchResults < total then sorted.take maxSearchResults else sorted
    { Results := results, Total := total }

/-! ## Frontmatter boost (search ranker of the current revision)

The current revision of the search ranker scores against frontmatter
metadata as well: the base filename score of a positively matching entry is
increased by a boost computed from the description and tags, capped at 1.0.
Modelled from the spec: that revision of app/server/server.go is absent
from src/ (only its tests are present), so the boost formula below follows
the spec's §4.5 wording, which the repository tests exercise verbatim. -/

/-- Modelled from the spec: the metadata-form query normalization of §4.5
(lowercased, spaces preserved). -/
def normalizeMetaQuery (q : String) : String :=
  goToLower q

/-- Modelled from the spec: the boost contribution of a single tag — 0.3
for a case-insensitive exact match, else 0.15 for a case-insensitive
substring match, else 0. -/
def tagBoost (query tag : String) : ℚ :=
  if goToLower tag = query then mkRat 3 10
  else if goContains (goToLower tag) query then mkRat 3 20
  else 0

/-- Modelled from the spec: the summed frontmatter boost of §4.5 before
capping — 0.5 if the metadata-form query is a case-insensitive substring
of the description, plus each tag's contribution. -/
def frontmatterBoostSum (query : String) (f : FileInfo) : ℚ :=
  (f.Tags.map (tagBoost query)).foldl qadd
    (if goContains (goToLower f.Description) query then mkRat 1 2 else 0)

/-- Modelled from the spec: the summed boost capped at 1.0 and added to the
base score. -/
def applyFrontmatterBoost (base : ℚ) (query : String) (f : FileInfo) : ℚ :=
  qadd base (min (frontmatterBoostSum query f) 1)

/-- Modelled from the spec: the boosted score of an entry — the base
filename score with the capped boost added when the base is positive. -/
def calculateScoreBoosted (filenameQuery metaQuery : String) (f : FileInfo) : ℚ :=
  let base := calculateScore filenameQuery f.Normalized
  if 0 < base then applyFrontmatterBoost base metaQuery f else 0

/-! ## Lexical path functions (Go path/filepath, Unix rules)

cleanPathGo is the segment-stack formulation of filepath.Clean: empty and
dot segments are dropped, a dotdot segment pops a previous real segment,
cannot pop another dotdot, is dropped at the root of a rooted path and is
kept on an unrooted path.  joinPathGo and relPathGo follow filepath.Join
and filepath.Rel (no volume names on Unix). -/

/-- One step of the Clean segment stack (stack head = most recent segment). -/
def cleanStep (rooted : Bool) (stack : List String) (seg : String) : List String :=
  if seg = "" || seg = "." then stack
  else if seg = ".." then
    match stack with
    | [] => if rooted then [] else [".."]
    | top :: rest => if top = ".." then ".." :: stack else rest
  else seg :: stack

/-- Embedding of filepath.Clean (Unix). -/
def cleanPathGo (p : String) : String :=
  if p = "" then "."
  else
    let rooted := goStartsWith p "/"
    let stack := (goSplitChar p '/').foldl (cleanStep rooted) []
    let body := String.intercalate "/" stack.reverse
    if rooted then (if body = "" then "/" else "/" ++ body)
    else (if body = "" then "." else body)

/-- Embedding of filepath.Join on two elements: empty elements are dropped,
the rest joined with a slash and cleaned; all-empty input gives "". -/
def joinPathGo (a b : String) : String :=
  if a = "" && b = "" then ""
  else if a = "" then cleanPathGo b
  else if b = "" then cleanPathGo a
  else cleanPathGo (a ++ "/" ++ b)

/-- Slash-separated segments of a cleaned path; the root path "/" is the
single empty segment, so that a rooted path's leading empty segment plays
the role of the root marker exactly as in filepath.Rel's element loop. -/
def relSegs (p : String) : List String :=
  if p = "/" then [""] else goSplitChar p '/'

/-- Drop the longest common prefix of two segment lists. -/
def dropCommon : List String → List String → List String × List String
  | a :: as, b :: bs => if a = b then dropCommon as bs else (a :: as, b :: bs)
  | as, bs => (as, bs)

/-- Embedding of filepath.Rel (Unix): the relative form base -> targ, or an
error when one side is rooted and the other is not, or when the first
differing base segment is a dotdot segment. -/
def relPathGo (basep targp : String) : Except Unit String :=
  let base := cleanPathGo basep
  let targ := cleanPathGo targp
  if targ = base then Except.ok "."
  else
    let base' := if base = "." then "" else base
    let baseSlashed := goStartsWith base' "/"
    let targSlashed := goStartsWith targ "/"
    if baseSlashed ≠ targSlashed then Except.error ()
    else
      let bsegs := if base' = "" then [] else relSegs base'
      let tsegs := relSegs targ
      let (brem, trem) := dropCommon bsegs tsegs
      match brem with
      | b0 :: _ =>
        if b0 = ".." then Except.error ()
        else Except.ok (String.intercalate "/" (List.replicate brem.length ".." ++ trem))
      | [] => Except.ok (String.intercalate "/" trem)

/-! ## Path resolution (app/scanner/path.go SafeResolvePath)

The filesystem stat is passed in as a function from paths to stat results;
everything before the stat is the lexical logic of the Go function. -/

/-- Result of os.Stat on a path. -/
inductive StatResult
  | ok (size : Int)
  | notExist
  | otherError
  deriving DecidableEq, Repr

/-- Error taxonomy of SafeResolvePath (one constructor per return branch). -/
inductive PathError
  | emptyPath
  | absolutePath
  | traversal
  | notFound
  | statFailed
  | tooLarge
  deriving DecidableEq, Repr

/-- The .md-suffixing step of SafeResolvePath. -/
def withMdSuffix (p : String) : String :=
  if goEndsWith p ".md" then p else p ++ ".md"

/-- Whether the relative form base -> joined is undefined or begins with
a dotdot segment (the combined escape condition of SafeResolvePath's
second traversal check). -/
def relEscapes (base joined : String) : Bool :=
  match relPathGo base joined with
  | Except.error _ => true
  | Except.ok rel => goStartsWith rel ".."

/-- Whether a slash-separated path has a dotdot segment (the condition the
spec states; the code checks for a dotdot substring instead). -/
def hasDotDotSegment (p : String) : Bool :=
  (goSplitChar p '/').contains ".."

/-- Embedding of scanner.SafeResolvePath(baseDir, userPath, maxSize). -/
def SafeResolvePath (stat : String → StatResult) (baseDir userPath : String) (maxSize : Int) :
    Except PathError String :=
  if userPath = "" then Except.error PathError.emptyPath
  else if goStartsWith userPath "/" then Except.error PathError.absolutePath
  else
    let p2 := cleanPathGo (withMdSuffix userPath)
    if goContains p2 ".." then Except.error PathError.traversal
    else
      let absPath := joinPathGo baseDir p2
      let cleanBase := cleanPathGo baseDir
      let cleanJoined := cleanPathGo absPath
      match relPathGo cleanBase cleanJoined with
      | Except.error _ => Except.error PathError.traversal
      | Except.ok rel =>
        if goStartsWith rel ".." then Except.error PathError.traversal
        else
          match stat absPath with
          | StatResult.notExist => Except.error PathError.notFound
          | StatResult.otherError => Except.error PathError.statFailed
          | StatResult.ok size =>
            if maxSize < size then Except.error PathError.tooLarge
            else Except.ok absPath

/-! ## Reading a document (app/server/server.go readDoc) -/

/-- Filesystem interface used by readDoc: os.Stat and os.ReadFile. -/
structure GoFs where
  stat : String → StatResult
  read : String → Option String

/-- Embedding of server.ReadOutput. -/
structure ReadOutput where
  Path : String
  Content : String
  Size : Nat
  Source : String
  deriving DecidableEq, Repr

/-- Error taxonomy of readDoc (one constructor per error return). -/
inductive ReadError
  | cancelled
  | invalidSource (s : String)
  | resolveFailed (src : String) (e : PathError)
  | readFailed
  | notFoundAnySource (path : String)
  deriving DecidableEq, Repr

/-- Server configuration directories relevant to readDoc. -/
structure ServerConfig where
  commandsDir : String
  projectDocsDir : String
  projectRootDir : String
  maxFileSize : Int

/-- strings.SplitN(s, ":", 2): part before the first colon and the rest. -/
def splitN2Colon (s : String) : String × String :=
  match goSplitChar s ':' with
  | [] => ("", "")
  | first :: rest => (first, String.intercalate ":" rest)

/-- Source-string lookup of readDoc's switch (base directory and source). -/
def lookupSource (cfg : ServerConfig) (s : String) : Option (String × DocSource) :=
  if s = "commands" then some (cfg.commandsDir, DocSource.commands)
  else if s = "project-docs" then some (cfg.projectDocsDir, DocSource.projectDocs)
  else if s = "project-root" then some (cfg.projectRootDir, DocSource.projectRoot)
  else none

/-- The try-all-sources loop of readDoc: resolve then read, continuing with
the next source on any failure. -/
def readDocLoop (fs : GoFs) (maxSize : Int) (cleanP : String) :
    List (String × DocSource) → Except ReadError ReadOutput
  | [] => Except.error (ReadError.notFoundAnySource cleanP)
  | (dir, src) :: rest =>
    match SafeResolvePath fs.stat dir cleanP maxSize with
    | Except.error _ => readDocLoop fs maxSize cleanP rest
    | Except.ok resolved =>
      match fs.read resolved with
      | none => readDocLoop fs maxSize cleanP rest
      | some content =>
        Except.ok { Path := cleanP, Content := content,
                    Size := goByteLen content, Source := sourceStr src }

/-- Embedding of Server.readDoc(path, source). -/
def readDoc (fs : GoFs) (cfg : ServerConfig) (path : String) (source : Option String)
    (cancelled : Bool) : Except ReadError ReadOutput :=
  if cancelled then Except.error ReadError.cancelled
  else
    let pair :=
      if goContains path ":" then splitN2Colon path
      else match source with
        | some s => (s, path)
        | none => ("", path)
    if pair.1 ≠ "" then
      match lookupSource cfg pair.1 with
      | none => Except.error (ReadError.invalidSource pair.1)
      | some (baseDir, actualSource) =>
        match SafeResolvePath fs.stat baseDir pair.2 cfg.maxFileSize with
        | Except.error e => Except.error (ReadError.resolveFailed pair.1 e)
        | Except.ok resolved =>
          match fs.read resolved with
          | none => Except.error ReadError.readFailed
          | some content =>
            Except.ok { Path := pair.2, Content := content,
                        Size := goByteLen content, Source := sourceStr actualSource }
    else
      readDocLoop fs cfg.maxFileSize pair.2
        [(cfg.commandsDir, DocSource.commands),
         (cfg.projectDocsDir, DocSource.projectDocs),
         (cfg.projectRootDir, DocSource.projectRoot)]

/-- One resolve-and-read attempt against a single source, as an Option
(used to state the fallback-order property of readDoc). -/
def tryReadFrom (fs : GoFs) (maxSize : Int) (dir : String) (src : DocSource) (cleanP : String) :
    Option ReadOutput :=
  match SafeResolvePath fs.stat dir cleanP maxSize with
  | Except.error _ => none
  | Except.ok resolved =>
    match fs.read resolved with
    | none => none
    | some content =>
      some { Path := cleanP, Content := content,
             Size := goByteLen content, Source := sourceStr src }

/-! ## Frontmatter parsing (app/scanner/frontmatter.go)

The YAML unmarshalling of the metadata block is the external yaml.v3
library; it is passed in as a function returning none exactly when
unmarshalling fails.  Everything else (delimiter scanning, the fallback
branches, tag-shape handling) is the Go function. -/

/-- Embedding of scanner.Frontmatter. -/
structure Frontmatter where
  Description : String
  Tags : List String
  deriving DecidableEq, Repr

/-- The dynamic shapes the raw tags field can take after yaml unmarshalling
into an interface: absent, a string, or a list whose items may or may not
be strings. -/
inductive YamlTags
  | missing
  | ystr (s : String)
  | ylist (items : List (Option String))
  deriving DecidableEq, Repr

/-- Embedding of scanner.rawFrontmatter. -/
structure RawFrontmatter where
  Description : String
  Tags : YamlTags
  deriving DecidableEq, Repr

/-- Embedding of scanner.parseTags (Go strings.TrimSpace modelled by
goTrim, exact on ASCII whitespace). -/
def parseTags : YamlTags → List String
  | YamlTags.missing => []
  | YamlTags.ystr s =>
    if s = "" then []
    else ((goSplitChar s ',').map goTrim).filter (fun t => t ≠ "")
  | YamlTags.ylist items =>
    items.filterMap (fun it =>
      match it with
      | some s => if s ≠ "" then some (goTrim s) else none
      | none => none)

/-- Index of the first occurrence of pat in l (bytes.Index at the character
level; ASCII patterns occur at the same positions in both views). -/
def findSub (l pat : List Char) : Option Nat :=
  if pat.isPrefixOf l then some 0
  else
    match l with
    | [] => none
    | _ :: rest => (findSub rest pat).map (· + 1)

/-- The delimiter-scanning part of ParseFrontmatter: when an opening and a
matching closing delimiter are found, the yaml block between them and the
content after the closing delimiter; none otherwise. -/
def fmBlock (content : String) : Option (String × String) :=
  let cl := content.toList
  if !(goStartsWith content "---\n") && !(goStartsWith content "---\r\n") then none
  else
    let le := if goStartsWith content "---\r\n" then "\r\n" else "\n"
    match findSub cl le.toList with
    | none => none
    | some si0 =>
      let si := si0 + le.length
      let remaining := cl.drop si
      let closing := ("---" ++ le).toList
      let endIdxOpt :=
        if closing.isPrefixOf remaining then some 0
        else
          match findSub remaining (le.toList ++ closing) with
          | none => none
          | some i => some (i + le.length)
      match endIdxOpt with
      | none => none
      | some endIdx =>
        let yamlBlock := remaining.take endIdx
        let contentStart := si + endIdx + closing.length
        some (String.mk yamlBlock, String.mk (cl.drop contentStart))

/-- Embedding of scanner.ParseFrontmatter(content); yamlParse stands for
yaml.Unmarshal on the metadata block (none = unmarshalling error). -/
def ParseFrontmatter (yamlParse : String → Option RawFrontmatter) (content : String) :
    Frontmatter × String :=
  match fmBlock content with
  | none => ({ Description := "", Tags := [] }, content)
  | some (yamlBlock, stripped) =>
    if 0 < yamlBlock.length then
      match yamlParse yamlBlock with
      | none => ({ Description := "", Tags := [] }, content)
      | some raw =>
        ({ Description := raw.Description, Tags := parseTags raw.Tags }, stripped)
    else
      ({ Description := "", Tags := [] }, stripped)

/-! ## Scanner walk (app/scanner/scanner.go)

The filesystem below a root is a listing: a sequence of named entries,
each a file (with size and content) or a subdirectory with its own
listing; the sibling order is the walk order of the Go code.  Context
cancellation is not modelled (a cancelled walk returns an error and
produces no index). -/

/-- A directory listing: files and subdirectories in walk order. -/
inductive FsTree
  | nil
  | fileCons (name : String) (size : Int) (content : String) (rest : FsTree)
  | dirCons (name : String) (children : FsTree) (rest : FsTree)
  deriving Repr

/-- The file names of a listing together with the names of the directories
on the path from the listing down to each file. -/
def treeFiles : List String → FsTree → List (List String × String)
  | _, FsTree.nil => []
  | anc, FsTree.fileCons n _ _ rest => (anc, n) :: treeFiles anc rest
  | anc, FsTree.dirCons n ch rest => treeFiles (anc ++ [n]) ch ++ treeFiles anc rest

/-- Embedding of Scanner.shouldExcludeDir. -/
def shouldExcludeDir (excludeDirs : List String) (dirName : String) : Bool :=
  excludeDirs.contains dirName

/-- Embedding of extractFrontmatter: parse the first 2KB of the content and
keep description and tags. -/
def extractFM (yamlParse : String → Option RawFrontmatter) (content : String) :
    String × List String :=
  let fm := (ParseFrontmatter yamlParse (String.mk (content.toList.take 2048))).1
  (fm.Description, fm.Tags)

/-- The WalkDir traversal of scanRecursive below the walk root: dirRel and
dirAbs are the relative and absolute paths of the listing's parent
directory (dirRel = "" directly under the root).  Hidden entries are
skipped, excluded directories (project-docs only) are pruned with their
whole subtree, and non-.md files are ignored. -/
def walkTree (yamlParse : String → Option RawFrontmatter) (excludeDirs : List String)
    (source : DocSource) : String → String → FsTree → List FileInfo
  | _, _, FsTree.nil => []
  | dirRel, dirAbs, FsTree.fileCons name size content rest =>
    (if goStartsWith name "." then []
     else if goEndsWith name ".md" then
       let rel := if dirRel = "" then name else dirRel ++ "/" ++ name
       [{ Name := name, Filename := sourceStr source ++ ":" ++ rel,
          Normalized := goToLower name, Source := source,
          Path := dirAbs ++ "/" ++ name, Size := size,
          Description := (extractFM yamlParse content).1,
          Tags := (extractFM yamlParse content).2 }]
     else []) ++ walkTree yamlParse excludeDirs source dirRel dirAbs rest
  | dirRel, dirAbs, FsTree.dirCons name children rest =>
    (if goStartsWith name "." then []
     else if source = DocSource.projectDocs && shouldExcludeDir excludeDirs name then []
     else
       walkTree yamlParse excludeDirs source
         (if dirRel = "" then name else dirRel ++ "/" ++ name)
         (dirAbs ++ "/" ++ name) children) ++
    walkTree yamlParse excludeDirs source dirRel dirAbs rest

/-- Embedding of Scanner.scanRecursive on a source root directory: the
hidden and exclusion checks apply to the root's own base name as well, then
its listing is walked. -/
def scanRecursive (yamlParse : String → Option RawFrontmatter) (excludeDirs : List String)
    (source : DocSource) (rootName rootAbs : String) (children : FsTree) :
    List FileInfo :=
  if goStartsWith rootName "." then []
  else if source = DocSource.projectDocs && shouldExcludeDir excludeDirs rootName then []
  else walkTree yamlParse excludeDirs source "" rootAbs children

/-- Embedding of Scanner.scanFlat on a source root directory's listing:
only top-level .md files, no recursion. -/
def scanFlat (yamlParse : String → Option RawFrontmatter) (source : DocSource)
    (rootAbs : String) : FsTree → List FileInfo
  | FsTree.nil => []
  | FsTree.dirCons _ _ rest => scanFlat yamlParse source rootAbs rest
  | FsTree.fileCons name size content rest =>
    (if goStartsWith name "." then []
     else if goEndsWith name ".md" then
       [{ Name := name, Filename := sourceStr source ++ ":" ++ name,
          Normalized := goToLower name, Source := source,
          Path := rootAbs ++ "/" ++ name, Size := size,
          Description := (extractFM yamlParse content).1,
          Tags := (extractFM yamlParse content).2 }]
     else []) ++ scanFlat yamlParse source rootAbs rest

/-- The three source trees of a scanner; none models a directory whose stat
reports not-exist (skipped without error). -/
structure ScannerFs where
  commandsRoot : Option (String × String × FsTree)
  projectDocsRoot : Option (String × String × FsTree)
  projectRootRoot : Option (String × FsTree)

/-- Embedding of Scanner.Scan: commands then project-docs recursively, then
project-root flat, missing directories skipped. -/
def scannerScan (yamlParse : String → Option RawFrontmatter) (excludeDirs : List String)
    (fs : ScannerFs) : List FileInfo :=
  (match fs.commandsRoot with
   | none => []
   | some (n, abs, ch) => scanRecursive yamlParse excludeDirs DocSource.commands n abs ch) ++
  (match fs.projectDocsRoot with
   | none => []
   | some (n, abs, ch) => scanRecursive yamlParse excludeDirs DocSource.projectDocs n abs ch) ++
  (match fs.projectRootRoot with
   | none => []
   | some (abs, ch) => scanFlat yamlParse DocSource.projectRoot abs ch)

/-! ## Cached scanner (CachedScanner.Scan) -/

/-- Errors an underlying scan can produce. -/
inductive ScanError
  | cancelled
  | failed
  deriving DecidableEq, Repr

/-- The single cache slot of CachedScanner; none models a miss (absent,
TTL-expired or invalidated). -/
structure CacheState where
  slot : Option (List FileInfo)
  deriving DecidableEq, Repr

/-- Embedding of CachedScanner.Scan as a state transition: context check,
cache lookup, underlying scan on a miss, cache population only on success.
The underlying scanner's result is passed in as a value. -/
def cachedScan (cancelled : Bool) (underlying : Except ScanError (List FileInfo))
    (st : CacheState) : Except ScanError (List FileInfo) × CacheState :=
  if cancelled then (Except.error ScanError.cancelled, st)
  else
    match st.slot with
    | some files => (Except.ok files, st)
    | none =>
      match underlying with
      | Except.error e => (Except.error e, st)
      | Except.ok files => (Except.ok files, { slot := some files })

/-! ## Concrete fixtures used by the theorems below -/

/-- A plain commands file entry with the given name. -/
def c3File (name : String) : FileInfo :=
  { Name := name, Filename := "commands:" ++ name, Normalized := name,
    Source := DocSource.commands, Path := "/c/" ++ name, Size := 1,
    Description := "", Tags := [] }

/-- Sixteen matching files whose scores under the query "a" form three tie
groups (byte lengths 5, 6 and 8). -/
def c3Files : List FileInfo :=
  [c3File "am1.md", c3File "am2.md",
   c3File "a1.md", c3File "a2.md", c3File "a3.md",
   c3File "axyz1.md", c3File "axyz2.md", c3File "axyz3.md",
   c3File "am3.md",
   c3File "a4.md",
   c3File "axyz4.md",
   c3File "a5.md",
   c3File "axyz5.md", c3File "axyz6.md",
   c3File "a6.md",
   c3File "axyz7.md"]

/-- Three equal-length files all tied under the query "a". -/
def c3wFiles : List FileInfo :=
  [c3File "a1.md", c3File "a2.md", c3File "a3.md"]

/-- A project-docs file entry with description and tags. -/
def c1File : FileInfo :=
  { Name := "readme.md", Filename := "project-docs:readme.md", Normalized := "readme.md",
    Source := DocSource.projectDocs, Path := "/d/readme.md", Size := 1,
    Description := "the project readme overview", Tags := ["readme", "docs"] }

/-- A plain project-root file entry with the given name. -/
def c9File (name : String) : FileInfo :=
  { Name := name, Filename := "project-root:" ++ name, Normalized := name,
    Source := DocSource.projectRoot, Path := "/r/" ++ name, Size := 1,
    Description := "", Tags := [] }

/-- Fifteen files all matching the query "doc". -/
def c9Files : List FileInfo :=
  [c9File "doc1.md", c9File "doc2.md", c9File "doc3.md", c9File "doc4.md",
   c9File "doc5.md", c9File "doc6.md", c9File "doc7.md", c9File "doc8.md",
   c9File "doc9.md", c9File "doc10.md", c9File "doc11.md", c9File "doc12.md",
   c9File "doc13.md", c9File "doc14.md", c9File "doc15.md"]

/-- A single exactly-matching file for the query "notes". -/
def c10Files : List FileInfo :=
  [c9File "notes.md"]

/-- A filesystem where only /docs/f.md exists and is readable. -/
def c5Fs : GoFs :=
  { stat := fun p => if p = "/docs/f.md" then StatResult.ok 5 else StatResult.notExist,
    read := fun p => if p = "/docs/f.md" then some "hi" else none }

/-- The directory configuration used with c5Fs. -/
def c5Cfg : ServerConfig :=
  { commandsDir := "/cmd", projectDocsDir := "/docs", projectRootDir := "/root",
    maxFileSize := 100 }

/-- A project-docs listing with a visible file, a hidden file, and a file
inside an excluded directory. -/
def c7Tree : FsTree :=
  FsTree.fileCons "visible.md" 1 ""
    (FsTree.fileCons ".hidden.md" 1 ""
      (FsTree.dirCons "node_modules" (FsTree.fileCons "dep.md" 1 "" FsTree.nil)
        FsTree.nil))

/-- A scanner filesystem whose only root is a project-docs tree. -/
def c7Fs : ScannerFs :=
  { commandsRoot := none,
    projectDocsRoot := some ("docs", "/d", c7Tree),
    projectRootRoot := none }

/-- The single entry the scan of c7Fs produces. -/
def c7Entry : FileInfo :=
  { Name := "visible.md", Filename := "project-docs:visible.md",
    Normalized := "visible.md", Source := DocSource.projectDocs,
    Path := "/d/visible.md", Size := 1, Description := "", Tags := [] }

/-- The search matches of c3Files under the query "a", as a literal list
(byte lengths 5, 6 and 8 give the scores 4/25, 2/15 and 1/10). -/
def c3Match (name : String) (sc : ℚ) : SearchMatch :=
  { Path := "commands:" ++ name, Name := name, Score := sc, Source := "commands" }

/-- The collected matches of c3Files in encounter order. -/
def c3Matches : List SearchMatch :=
  [c3Match "am1.md" (mkRat 2 15), c3Match "am2.md" (mkRat 2 15),
   c3Match "a1.md" (mkRat 4 25), c3Match "a2.md" (mkRat 4 25), c3Match "a3.md" (mkRat 4 25),
   c3Match "axyz1.md" (mkRat 1 10), c3Match "axyz2.md" (mkRat 1 10),
   c3Match "axyz3.md" (mkRat 1 10),
   c3Match "am3.md" (mkRat 2 15),
   c3Match "a4.md" (mkRat 4 25),
   c3Match "axyz4.md" (mkRat 1 10),
   c3Match "a5.md" (mkRat 4 25),
   c3Match "axyz5.md" (mkRat 1 10), c3Match "axyz6.md" (mkRat 1 10),
   c3Match "a6.md" (mkRat 4 25),
   c3Match "axyz7.md" (mkRat 1 10)]

/-- The state of the match array after the top-level partition step of the
sort of c3Matches. -/
def c3Mid : List SearchMatch :=
  [c3Match "a4.md" (mkRat 4 25), c3Match "a6.md" (mkRat 4 25),
   c3Match "a1.md" (mkRat 4 25), c3Match "a2.md" (mkRat 4 25), c3Match "a3.md" (mkRat 4 25),
   c3Match "a5.md" (mkRat 4 25),
   c3Match "am3.md" (mkRat 2 15),
   c3Match "axyz3.md" (mkRat 1 10),
   c3Match "am1.md" (mkRat 2 15),
   c3Match "axyz2.md" (mkRat 1 10), c3Match "axyz4.md" (mkRat 1 10),
   c3Match "axyz1.md" (mkRat 1 10), c3Match "axyz5.md" (mkRat 1 10),
   c3Match "axyz6.md" (mkRat 1 10),
   c3Match "am2.md" (mkRat 2 15),
   c3Match "axyz7.md" (mkRat 1 10)]

/-- The fully sorted match array of c3Matches. -/
def c3Sorted : List SearchMatch :=
  [c3Match "a4.md" (mkRat 4 25), c3Match "a6.md" (mkRat 4 25),
   c3Match "a1.md" (mkRat 4 25), c3Match "a2.md" (mkRat 4 25), c3Match "a3.md" (mkRat 4 25),
   c3Match "a5.md" (mkRat 4 25),
   c3Match "am3.md" (mkRat 2 15), c3Match "am1.md" (mkRat 2 15),
   c3Match "am2.md" (mkRat 2 15),
   c3Match "axyz3.md" (mkRat 1 10), c3Match "axyz2.md" (mkRat 1 10),
   c3Match "axyz4.md" (mkRat 1 10), c3Match "axyz1.md" (mkRat 1 10),
   c3Match "axyz5.md" (mkRat 1 10), c3Match "axyz6.md" (mkRat 1 10),
   c3Match "axyz7.md" (mkRat 1 10)]

deriving instance DecidableEq for Except

/-! ## The executable rational wrappers agree with the field operations -/

theorem qmul_eq (a b : ℚ) : qmul a b = a * b := by
  unfold qmul
  rw [Rat.mkRat_eq_div]
  push_cast
  rw [← div_mul_div_comm, Rat.num_div_den, Rat.num_div_den]

theorem qinv_eq (b : ℚ) : qinv b = b⁻¹ := by
  unfold qinv
  rw [Rat.inv_def', Rat.divInt_eq_div]
  split
  · next h =>
    rw [Rat.mkRat_eq_div]
    push_cast [Int.cast_natAbs]
    rw [abs_of_nonneg (show (0:ℚ) ≤ (b.num : ℚ) by exact_mod_cast h)]
  · next h =>
    rw [Rat.mkRat_eq_div]
    push_cast [Int.cast_natAbs]
    rw [abs_of_neg (show (b.num : ℚ) < 0 by
      exact_mod_cast lt_of_not_le (fun hh => h (by exact_mod_cast hh)))]
    rw [neg_div_neg_eq]

theorem qdiv_eq (a b : ℚ) : qdiv a b = a / b := by
  unfold qdiv
  rw [qmul_eq, qinv_eq, div_eq_mul_inv]

theorem qadd_eq (a b : ℚ) : qadd a b = a + b := by
  unfold qadd
  rw [Rat.mkRat_eq_div]
  push_cast
  rw [show (a:ℚ) + b = (a.num : ℚ) / (a.den : ℚ) + (b.num : ℚ) / (b.den : ℚ) by
    rw [Rat.num_div_den, Rat.num_div_den]]
  rw [div_add_div _ _ (show ((a.den:ℚ)) ≠ 0 by exact_mod_cast a.den_nz)
    (show ((b.den:ℚ)) ≠ 0 by exact_mod_cast b.den_nz)]
  ring_nf

theorem qofNat_eq (n : Nat) : qofNat n = (n : ℚ) := by
  unfold qofNat
  rw [Rat.mkRat_eq_div]
  simp

theorem qofInt_eq (n : Int) : qofInt n = (n : ℚ) := by
  unfold qofInt
  rw [Rat.mkRat_eq_div]
  simp

theorem mkRat_4_5 : (mkRat 4 5 : ℚ) = 4/5 := by rw [Rat.mkRat_eq_div]; norm_num

theorem mkRat_7_10 : (mkRat 7 10 : ℚ) = 7/10 := by rw [Rat.mkRat_eq_div]; norm_num

theorem mkRat_3_10 : (mkRat 3 10 : ℚ) = 3/10 := by rw [Rat.mkRat_eq_div]; norm_num

theorem mkRat_1_2 : (mkRat 1 2 : ℚ) = 1/2 := by rw [Rat.mkRat_eq_div]; norm_num

theorem mkRat_3_20 : (mkRat 3 20 : ℚ) = 3/20 := by rw [Rat.mkRat_eq_div]; norm_num

theorem foldl_qadd_eq (l : List ℚ) : ∀ (init : ℚ), l.foldl qadd init = init + l.sum := by
  induction l with
  | nil => intro init; simp
  | cons x t ih =>
    intro init
    rw [List.foldl_cons, ih, qadd_eq, List.sum_cons]
    ring

/-! ## Permutation and identity properties of the sort embedding -/

theorem pdqsortGo_small {α : Type} (less : α → α → Bool) (fuel : Nat) (xs : Array α)
    (a b limit : Nat) (wb wp : Bool) (h : b - a ≤ 12) :
    pdqsortGo less (fuel+1) xs a b limit wb wp = insertionSortGo less xs a b := by
  rw [pdqsortGo]
  rw [if_pos h]

theorem pdqsortGo_stepL {α : Type} (less : α → α → Bool) (fuel : Nat) (xs xs1 : Array α)
    (b limit pivot mid : Nat) (ap : Bool)
    (h12 : ¬ (b - 0 ≤ 12)) (hl : ¬ (limit = 0))
    (hpiv : choosePivotGo less xs 0 b = (pivot, SortHint.increasing))
    (hins : partInsSortGo less xs 0 b = (xs, false))
    (hpart : partitionGo less xs 0 b pivot = (xs1, mid, ap))
    (hless : mid - 0 < b - mid) :
    pdqsortGo less (fuel+1) xs 0 b limit true true =
      pdqsortGo less fuel (pdqsortGo less fuel xs1 0 mid limit true true) (mid+1) b limit
        (decide ((b - 0) / 8 <= min (mid - 0) (b - mid))) ap := by
  rw [pdqsortGo]
  rw [if_neg h12, if_neg hl]
  have h1 : pdqPre true xs 0 b limit = (xs, limit) := by simp [pdqPre]
  simp only [h1]
  simp only [hpiv]
  have h2 : pdqReverse SortHint.increasing pivot xs 0 b = (xs, pivot, SortHint.increasing) := by
    simp [pdqReverse]
  simp only [h2]
  have h3 : pdqMaybeIns less true true SortHint.increasing xs 0 b = (xs, false) := by
    simp [pdqMaybeIns, hins]
  simp only [h3]
  simp only [Bool.false_eq_true, if_false]
  rw [if_neg (by simp)]
  simp only [hpart]
  rw [if_pos hless]

section IdLemmas

variable {α : Type} (less : α → α → Bool) (xs : Array α)

theorem insSortInner_id (H : ∀ i j, altIdx less xs i j = false) (a : Nat) :
    ∀ j, insSortInner less a xs j = xs
  | 0 => rfl
  | j+1 => by
    rw [insSortInner]
    rw [if_neg (by simp [H])]

theorem insSortOuter_id (H : ∀ i j, altIdx less xs i j = false) (a b : Nat) :
    ∀ fuel i, insSortOuter less a b fuel xs i = xs := by
  intro fuel
  induction fuel with
  | zero => intro i; rfl
  | succ n ih =>
    intro i
    rw [insSortOuter]
    split
    · rw [insSortInner_id less xs H a i]
      exact ih (i+1)
    · rfl

theorem insertionSortGo_id (H : ∀ i j, altIdx less xs i j = false) (a b : Nat) :
    insertionSortGo less xs a b = xs :=
  insSortOuter_id less xs H a b b (a+1)

theorem pinsAdvance_id (H : ∀ i j, altIdx less xs i j = false) (b : Nat) :
    ∀ fuel i, b ≤ i + fuel → i ≤ b → pinsAdvance less xs b fuel i = b := by
  intro fuel
  induction fuel with
  | zero =>
    intro i h1 h2
    have : i = b := by omega
    subst this
    rfl
  | succ n ih =>
    intro i h1 h2
    rw [pinsAdvance]
    split
    · rw [if_neg (by simp [H])]
      exact ih (i+1) (by omega) (by omega)
    · omega

theorem partInsSortGo_id (H : ∀ i j, altIdx less xs i j = false) (a b : Nat)
    (hab : a + 1 ≤ b) : partInsSortGo less xs a b = (xs, true) := by
  unfold partInsSortGo partInsLoop
  rw [pinsAdvance_id less xs H b b (a+1) (by omega) hab]
  simp

theorem order2Go_id (H : ∀ i j, altIdx less xs i j = false) (a b swaps : Nat) :
    order2Go less xs a b swaps = (a, b, swaps) := by
  simp [order2Go, H]

theorem medianGo_id (H : ∀ i j, altIdx less xs i j = false) (a b c swaps : Nat) :
    medianGo less xs a b c swaps = (b, swaps) := by
  simp [medianGo, order2Go, H]

theorem medianAdjacentGo_id (H : ∀ i j, altIdx less xs i j = false) (a swaps : Nat) :
    medianAdjacentGo less xs a swaps = (a, swaps) := by
  simp [medianAdjacentGo, medianGo, order2Go, H]

theorem choosePivotGo_id (H : ∀ i j, altIdx less xs i j = false) (a b : Nat)
    (h8 : 8 ≤ b - a) :
    choosePivotGo less xs a b = (a + (b-a)/4*2, SortHint.increasing) := by
  unfold choosePivotGo
  rw [if_pos h8]
  rcases le_or_lt 50 (b - a) with h50 | h50
  · rw [if_pos h50]
    simp [medianAdjacentGo_id less xs H, medianGo_id less xs H]
  · rw [if_neg (by omega)]
    simp [medianGo_id less xs H]

theorem pdqsortGo_id (H : ∀ i j, altIdx less xs i j = false) :
    ∀ fuel a b limit, (b - a ≤ 12 ∨ limit ≠ 0) →
      pdqsortGo less fuel xs a b limit true true = xs := by
  intro fuel
  induction fuel with
  | zero => intro a b limit hc; rfl
  | succ n ih =>
    intro a b limit hc
    rw [pdqsortGo]
    by_cases h12 : b - a ≤ 12
    · rw [if_pos h12]
      exact insertionSortGo_id less xs H a b
    · rw [if_neg h12]
      have hl : ¬ (limit = 0) := by tauto
      rw [if_neg hl]
      have h1 : pdqPre true xs a b limit = (xs, limit) := by simp [pdqPre]
      simp only [h1]
      simp only [choosePivotGo_id less xs H a b (by omega)]
      have h2 : pdqReverse SortHint.increasing (a + (b-a)/4*2) xs a b =
          (xs, a + (b-a)/4*2, SortHint.increasing) := by simp [pdqReverse]
      simp only [h2]
      have h3 : pdqMaybeIns less true true SortHint.increasing xs a b = (xs, true) := by
        simp [pdqMaybeIns, partInsSortGo_id less xs H a b (by omega)]
      simp only [h3]
      simp

theorem bitsLen_ne_zero {n : Nat} (h : 0 < n) : bitsLen n ≠ 0 := by
  unfold bitsLen
  rw [if_neg (by omega)]
  omega

theorem goSortSlice_id (H : ∀ i j, altIdx less xs i j = false) :
    goSortSlice less xs = xs := by
  unfold goSortSlice
  by_cases h : xs.size ≤ 12
  · exact pdqsortGo_id less xs H (xs.size+1) 0 xs.size (bitsLen xs.size) (Or.inl (by omega))
  · exact pdqsortGo_id less xs H (xs.size+1) 0 xs.size (bitsLen xs.size)
      (Or.inr (bitsLen_ne_zero (by omega)))

end IdLemmas

theorem set_getElem_id {α : Type} : ∀ (l : List α) (i : Nat) (hi : i < l.length),
    l.set i (l.get ⟨i, hi⟩) = l
  | _ :: _, 0, _ => rfl
  | b :: t, i+1, hi => by
    simp only [List.get_cons_succ, List.set_cons_succ]
    rw [set_getElem_id t i (by simpa using hi)]

theorem cons_set_perm {α : Type} : ∀ (t : List α) (m : Nat) (hm : m < t.length) (a : α),
    (t.get ⟨m, hm⟩ :: t.set m a).Perm (a :: t)
  | b :: t', 0, _, a => List.Perm.swap a b t'
  | b :: t', m+1, hm, a => by
    have hm' : m < t'.length := by simpa using hm
    have ih := cons_set_perm t' m hm' a
    simp only [List.get_cons_succ, List.set_cons_succ]
    have h1 : (t'.get ⟨m, hm'⟩ :: b :: t'.set m a).Perm (b :: t'.get ⟨m, hm'⟩ :: t'.set m a) :=
      List.Perm.swap b (t'.get ⟨m, hm'⟩) (t'.set m a)
    have h3 : (b :: a :: t').Perm (a :: b :: t') := List.Perm.swap a b t'
    exact h1.trans ((ih.cons b).trans h3)

theorem perm_set_set {α : Type} : ∀ (l : List α) (i j : Nat) (hi : i < l.length) (hj : j < l.length),
    ((l.set i (l.get ⟨j, hj⟩)).set j (l.get ⟨i, hi⟩)).Perm l := by
  intro l i j hi hj
  rcases eq_or_ne i j with rfl | hne
  · rw [List.set_set, set_getElem_id]
  · induction l generalizing i j with
    | nil => simp at hi
    | cons a t ih =>
      match i, j with
      | 0, 0 => exact absurd rfl hne
      | 0, m+1 =>
        simp only [List.get_cons_zero, List.set_cons_zero, List.get_cons_succ,
          List.set_cons_succ]
        exact cons_set_perm t m (by simpa using hj) a
      | n+1, 0 =>
        simp only [List.get_cons_zero, List.set_cons_succ, List.get_cons_succ,
          List.set_cons_zero]
        exact cons_set_perm t n (by simpa using hi) a
      | n+1, m+1 =>
        simp only [List.get_cons_succ, List.set_cons_succ]
        exact (ih n m (by simpa using hi) (by simpa using hj) (by omega)).cons a

theorem aswap_perm {α : Type} (xs : Array α) (i j : Nat) :
    (aswap xs i j).toList.Perm xs.toList := by
  unfold aswap
  split
  case isTrue h =>
    rw [Array.toList_swap]
    exact perm_set_set xs.toList i j (by simpa using h.1) (by simpa using h.2)
  case isFalse => exact List.Perm.refl _

theorem insSortInner_perm {α : Type} (less : α → α → Bool) (a : Nat) :
    ∀ (j : Nat) (xs : Array α), (insSortInner less a xs j).toList.Perm xs.toList := by
  intro j
  induction j with
  | zero => intro xs; exact List.Perm.refl _
  | succ n ih =>
    intro xs
    rw [insSortInner]
    split
    · exact (ih _).trans (aswap_perm xs (n+1) n)
    · exact List.Perm.refl _

theorem insSortOuter_perm {α : Type} (less : α → α → Bool) (a b : Nat) :
    ∀ (fuel : Nat) (xs : Array α) (i : Nat),
      (insSortOuter less a b fuel xs i).toList.Perm xs.toList := by
  intro fuel
  induction fuel with
  | zero => intro xs i; exact List.Perm.refl _
  | succ n ih =>
    intro xs i
    rw [insSortOuter]
    split
    · exact (ih _ _).trans (insSortInner_perm less a i xs)
    · exact List.Perm.refl _

theorem insertionSortGo_perm {α : Type} (less : α → α → Bool) (xs : Array α) (a b : Nat) :
    (insertionSortGo less xs a b).toList.Perm xs.toList :=
  insSortOuter_perm less a b b xs (a+1)

theorem siftDownGo_perm {α : Type} (less : α → α → Bool) (first hi : Nat) :
    ∀ (fuel : Nat) (xs : Array α) (root : Nat),
      (siftDownGo less first hi fuel xs root).toList.Perm xs.toList := by
  intro fuel
  induction fuel with
  | zero => intro xs root; exact List.Perm.refl _
  | succ n ih =>
    intro xs root
    rw [siftDownGo]
    split
    · split
      · exact List.Perm.refl _
      · exact (ih _ _).trans (aswap_perm ..)
    · exact List.Perm.refl _

theorem heapBuild_perm {α : Type} (less : α → α → Bool) (first hi : Nat) :
    ∀ (i1 : Nat) (xs : Array α), (heapBuild less first hi xs i1).toList.Perm xs.toList := by
  intro i1
  induction i1 with
  | zero => intro xs; exact List.Perm.refl _
  | succ i ih =>
    intro xs
    exact (ih _).trans (siftDownGo_perm less first hi hi xs i)

theorem heapPop_perm {α : Type} (less : α → α → Bool) (first : Nat) :
    ∀ (i1 : Nat) (xs : Array α), (heapPop less first xs i1).toList.Perm xs.toList := by
  intro i1
  induction i1 with
  | zero => intro xs; exact List.Perm.refl _
  | succ i ih =>
    intro xs
    exact (ih _).trans ((siftDownGo_perm less first i i _ 0).trans (aswap_perm ..))

theorem heapSortGo_perm {α : Type} (less : α → α → Bool) (xs : Array α) (a b : Nat) :
    (heapSortGo less xs a b).toList.Perm xs.toList :=
  (heapPop_perm less a _ _).trans (heapBuild_perm less a (b-a) _ xs)

theorem reverseRangeGo_perm {α : Type} :
    ∀ (fuel : Nat) (xs : Array α) (i j : Nat),
      (reverseRangeGo fuel xs i j).toList.Perm xs.toList := by
  intro fuel
  induction fuel with
  | zero => intro xs i j; exact List.Perm.refl _
  | succ n ih =>
    intro xs i j
    rw [reverseRangeGo]
    split
    · exact (ih ..).trans (aswap_perm ..)
    · exact List.Perm.refl _

theorem pinsLeft_perm {α : Type} (less : α → α → Bool) (a : Nat) :
    ∀ (j : Nat) (xs : Array α), (pinsLeft less a xs j).toList.Perm xs.toList := by
  intro j
  induction j with
  | zero => intro xs; exact List.Perm.refl _
  | succ n ih =>
    intro xs
    rw [pinsLeft]
    split
    · exact (ih _).trans (aswap_perm ..)
    · exact List.Perm.refl _

theorem pinsRight_perm {α : Type} (less : α → α → Bool) (b : Nat) :
    ∀ (fuel : Nat) (xs : Array α) (j : Nat),
      (pinsRight less b fuel xs j).toList.Perm xs.toList := by
  intro fuel
  induction fuel with
  | zero => intro xs j; exact List.Perm.refl _
  | succ n ih =>
    intro xs j
    rw [pinsRight]
    split
    · split
      · exact (ih ..).trans (aswap_perm ..)
      · exact List.Perm.refl _
    · exact List.Perm.refl _

theorem partInsLoop_perm {α : Type} (less : α → α → Bool) (a b : Nat) :
    ∀ (steps : Nat) (xs : Array α) (i : Nat),
      (partInsLoop less a b xs i steps).1.toList.Perm xs.toList := by
  intro steps
  induction steps with
  | zero => intro xs i; exact List.Perm.refl _
  | succ n ih =>
    intro xs i
    rw [partInsLoop]
    split
    · exact List.Perm.refl _
    · split
      · exact List.Perm.refl _
      · refine (ih _ _).trans ?_
        refine List.Perm.trans ?_
          (aswap_perm xs (pinsAdvance less xs b b i) (pinsAdvance less xs b b i - 1))
        split
        · refine (pinsRight_perm less b b _ _).trans ?_
          split
          · exact pinsLeft_perm less a _ _
          · exact List.Perm.refl _
        · split
          · exact pinsLeft_perm less a _ _
          · exact List.Perm.refl _

theorem partInsSortGo_perm {α : Type} (less : α → α → Bool) (xs : Array α) (a b : Nat) :
    (partInsSortGo less xs a b).1.toList.Perm xs.toList :=
  partInsLoop_perm less a b 5 xs (a+1)

theorem breakPatternsGo_perm {α : Type} (xs : Array α) (a b : Nat) :
    (breakPatternsGo xs a b).toList.Perm xs.toList := by
  simp only [breakPatternsGo]
  split
  · exact (aswap_perm ..).trans ((aswap_perm ..).trans (aswap_perm ..))
  · exact List.Perm.refl _

theorem partMainLoop_perm {α : Type} (less : α → α → Bool) (a b : Nat) :
    ∀ (fuel : Nat) (xs : Array α) (i j : Nat),
      (partMainLoop less a b xs i j fuel).1.toList.Perm xs.toList := by
  intro fuel
  induction fuel with
  | zero => intro xs i j; exact List.Perm.refl _
  | succ n ih =>
    intro xs i j
    rw [partMainLoop]
    split
    · exact List.Perm.refl _
    · exact (ih _ _ _).trans (aswap_perm ..)

theorem partitionGo_perm {α : Type} (less : α → α → Bool) (xs : Array α) (a b pivot : Nat) :
    (partitionGo less xs a b pivot).1.toList.Perm xs.toList := by
  simp only [partitionGo]
  split
  · exact (aswap_perm ..).trans (aswap_perm ..)
  · exact (aswap_perm ..).trans ((partMainLoop_perm less a b (b+1) _ _ _).trans
      ((aswap_perm ..).trans (aswap_perm ..)))

theorem peqLoop_perm {α : Type} (less : α → α → Bool) (a b : Nat) :
    ∀ (fuel : Nat) (xs : Array α) (i j : Nat),
      (peqLoop less a b xs i j fuel).1.toList.Perm xs.toList := by
  intro fuel
  induction fuel with
  | zero => intro xs i j; exact List.Perm.refl _
  | succ n ih =>
    intro xs i j
    rw [peqLoop]
    split
    · exact List.Perm.refl _
    · exact (ih _ _ _).trans (aswap_perm ..)

theorem partitionEqualGo_perm {α : Type} (less : α → α → Bool) (xs : Array α) (a b pivot : Nat) :
    (partitionEqualGo less xs a b pivot).1.toList.Perm xs.toList :=
  (peqLoop_perm less a b (b+1) _ _ _).trans (aswap_perm ..)

theorem pdqPre_perm {α : Type} (wb : Bool) (xs : Array α) (a b limit : Nat) :
    (pdqPre wb xs a b limit).1.toList.Perm xs.toList := by
  unfold pdqPre
  split
  · exact breakPatternsGo_perm ..
  · exact List.Perm.refl _

theorem pdqReverse_perm {α : Type} (hint0 : SortHint) (pivot0 : Nat) (xs1 : Array α) (a b : Nat) :
    (pdqReverse hint0 pivot0 xs1 a b).1.toList.Perm xs1.toList := by
  unfold pdqReverse
  split
  · exact reverseRangeGo_perm b xs1 a (b-1)
  · exact List.Perm.refl _

theorem pdqMaybeIns_perm {α : Type} (less : α → α → Bool) (wb wp : Bool) (hint1 : SortHint)
    (xs2 : Array α) (a b : Nat) :
    (pdqMaybeIns less wb wp hint1 xs2 a b).1.toList.Perm xs2.toList := by
  unfold pdqMaybeIns
  split
  · exact partInsSortGo_perm ..
  · exact List.Perm.refl _

theorem pdqsortGo_perm {α : Type} (less : α → α → Bool) :
    ∀ (fuel : Nat) (xs : Array α) (a b limit : Nat) (wb wp : Bool),
      (pdqsortGo less fuel xs a b limit wb wp).toList.Perm xs.toList := by
  intro fuel
  induction fuel with
  | zero => intro xs a b limit wb wp; exact List.Perm.refl _
  | succ n ih =>
    intro xs a b limit wb wp
    rw [pdqsortGo]
    split
    · exact insertionSortGo_perm ..
    split
    · exact heapSortGo_perm ..
    split
    next xs1 limit1 h1 =>
    have hx1 : xs1.toList.Perm xs.toList := by
      have := pdqPre_perm wb xs a b limit
      rw [h1] at this; exact this
    split
    next pivot0 hint0 h0 =>
    split
    next xs2 pivot1 hint1 h2 =>
    have hx2 : xs2.toList.Perm xs.toList := by
      have := pdqReverse_perm hint0 pivot0 xs1 a b
      rw [h2] at this; exact this.trans hx1
    split
    next xs3 done h3 =>
    have hx3 : xs3.toList.Perm xs.toList := by
      have := pdqMaybeIns_perm less wb wp hint1 xs2 a b
      rw [h3] at this; exact this.trans hx2
    split
    · exact hx3
    split
    · split
      next xs4 mid h4 =>
      have hx4 : xs4.toList.Perm xs3.toList := by
        have := partitionEqualGo_perm less xs3 a b pivot1
        rw [h4] at this; exact this
      exact (ih ..).trans (hx4.trans hx3)
    · split
      next xs5 mid ap h5 =>
      have hx5 : xs5.toList.Perm xs3.toList := by
        have := partitionGo_perm less xs3 a b pivot1
        rw [h5] at this; exact this
      split
      · exact (ih ..).trans ((ih ..).trans (hx5.trans hx3))
      · exact (ih ..).trans ((ih ..).trans (hx5.trans hx3))

theorem goSortSlice_perm {α : Type} (less : α → α → Bool) (xs : Array α) :
    (goSortSlice less xs).toList.Perm xs.toList :=
  pdqsortGo_perm less (xs.size + 1) xs 0 xs.size (bitsLen xs.size) true true

/-! ## Properties of the score calculation -/

theorem fuzzyThreshold_eq : fuzzyThreshold = 3/10 := by
  unfold fuzzyThreshold
  exact mkRat_3_10

theorem listContains_infix_iff (s sub : List Char) :
    listContains s sub = true ↔ sub <:+: s := by
  induction s with
  | nil =>
    rw [listContains]
    simp [List.isEmpty_iff, List.infix_nil]
  | cons a rest ih =>
    rw [listContains]
    simp only [Bool.or_eq_true, List.isPrefixOf_iff_prefix, ih, List.infix_cons_iff]

theorem goContains_byteLen_le {s sub : String} (h : goContains s sub = true) :
    goByteLen sub ≤ goByteLen s := by
  unfold goContains at h
  rw [listContains_infix_iff] at h
  exact List.Sublist.sum_le_sum (h.sublist.map Char.utf8Size) (fun a _ => Nat.zero_le a)

theorem goByteLen_pos {s : String} (h : s ≠ "") : 0 < goByteLen s := by
  unfold goByteLen
  have : s.toList ≠ [] := fun he => h (by
    have := congrArg String.mk he
    simpa using this)
  match hs : s.toList, this with
  | c :: rest, _ =>
    simp only [hs, List.map_cons, List.sum_cons]
    have := c.utf8Size_pos
    omega

/-- Exact matches score exactly 1. -/
theorem calculateScore_exact {q n : String} (h : n = q ∨ n = q ++ ".md") :
    calculateScore q n = 1 := by
  unfold calculateScore
  rw [if_pos]
  simpa [decide_eq_true_iff] using h

/-- Substring (non-exact) matches score 0.8 scaled by the byte-length ratio. -/
theorem calculateScore_substring {q n : String} (hne : ¬(n = q ∨ n = q ++ ".md"))
    (hc : goContains n q = true) :
    calculateScore q n = (4/5) * ((goByteLen q : ℚ) / (goByteLen n : ℚ)) := by
  unfold calculateScore
  rw [if_neg (by simpa [decide_eq_true_iff] using hne), if_pos hc]
  rw [qmul_eq, qdiv_eq, qofNat_eq, qofNat_eq, mkRat_4_5]

/-- Fuzzy (non-exact, non-substring) scores are at most 0.7. -/
theorem calculateScore_fuzzy_le {q n : String} (hne : ¬(n = q ∨ n = q ++ ".md"))
    (hc : ¬goContains n q = true) :
    calculateScore q n ≤ 7/10 := by
  unfold calculateScore
  rw [if_neg (by simpa [decide_eq_true_iff] using hne), if_neg hc]
  cases hr : fuzzyMatchScore q n with
  | none => norm_num
  | some raw =>
    show (if raw > 0 then
        (if fuzzyThreshold ≤ min (qdiv (qofInt raw) (qofInt 100)) 1 then
          qmul (min (qdiv (qofInt raw) (qofInt 100)) 1) (mkRat 7 10)
         else 0)
       else (0:ℚ)) ≤ 7/10
    rw [qdiv_eq, qofInt_eq, qofInt_eq, qmul_eq, mkRat_7_10, fuzzyThreshold_eq]
    split
    · split
      · next h1 =>
        have h2 : min ((raw:ℚ)/100) 1 ≤ 1 := min_le_right _ _
        have h3 : (0:ℚ) ≤ min ((raw:ℚ)/100) 1 := le_trans (by norm_num) h1
        nlinarith
      · norm_num
    · norm_num

/-- Substring scores are at most 0.8. -/
theorem calculateScore_substring_le {q n : String} (hne : ¬(n = q ∨ n = q ++ ".md"))
    (hc : goContains n q = true) :
    calculateScore q n ≤ 4/5 := by
  rw [calculateScore_substring hne hc]
  rcases eq_or_ne n "" with rfl | hn
  · have h0 : goByteLen "" = 0 := rfl
    rw [h0]
    norm_num
  · have hle : (goByteLen q : ℚ) ≤ (goByteLen n : ℚ) := by
      exact_mod_cast goContains_byteLen_le hc
    have hpos : (0:ℚ) < (goByteLen n : ℚ) := by exact_mod_cast goByteLen_pos hn
    have hratio : (goByteLen q : ℚ) / (goByteLen n : ℚ) ≤ 1 := by
      rw [div_le_one hpos]; exact hle
    nlinarith

/-- Every score is at most 1. -/
theorem calculateScore_le_one (q n : String) : calculateScore q n ≤ 1 := by
  by_cases hex : n = q ∨ n = q ++ ".md"
  · rw [calculateScore_exact hex]
  · by_cases hc : goContains n q = true
    · exact le_trans (calculateScore_substring_le hex hc) (by norm_num)
    · exact le_trans (calculateScore_fuzzy_le hex hc) (by norm_num)

/-- Every score is nonnegative. -/
theorem calculateScore_nonneg (q n : String) : 0 ≤ calculateScore q n := by
  by_cases hex : n = q ∨ n = q ++ ".md"
  · rw [calculateScore_exact hex]
    norm_num
  · by_cases hc : goContains n q = true
    · rw [calculateScore_substring hex hc]
      have h1 : (0:ℚ) ≤ (goByteLen q : ℚ) := by positivity
      have h2 : (0:ℚ) ≤ (goByteLen n : ℚ) := by positivity
      positivity
    · unfold calculateScore
      rw [if_neg (by simpa [decide_eq_true_iff] using hex), if_neg hc]
      cases hr : fuzzyMatchScore q n with
      | none => norm_num
      | some raw =>
        show 0 ≤ (if raw > 0 then
            (if fuzzyThreshold ≤ min (qdiv (qofInt raw) (qofInt 100)) 1 then
              qmul (min (qdiv (qofInt raw) (qofInt 100)) 1) (mkRat 7 10)
             else 0)
           else (0:ℚ))
        rw [qdiv_eq, qofInt_eq, qofInt_eq, qmul_eq, mkRat_7_10, fuzzyThreshold_eq]
        split
        · split
          · next h1 =>
            have h3 : (0:ℚ) ≤ min ((raw:ℚ)/100) 1 := le_trans (by norm_num) h1
            positivity
          · norm_num
        · norm_num

/-! ## Structure of searchDocs output -/

theorem searchMatches_length (files : List FileInfo) (nq : String) :
    (searchMatches files nq).length =
      (files.filter (fun f => decide (0 < calculateScore nq f.Normalized))).length := by
  induction files with
  | nil => rfl
  | cons f rest ih =>
    by_cases h : 0 < calculateScore nq f.Normalized <;>
      simp [searchMatches, List.filterMap_cons, List.filter_cons, h, ih] <;>
      simpa [searchMatches] using ih

theorem sorted_perm_searchMatches (files : List FileInfo) (nq : String) :
    ((goSortSlice searchLess (searchMatches files nq).toArray).toList).Perm
      (searchMatches files nq) := by
  simpa using goSortSlice_perm searchLess (searchMatches files nq).toArray

/-- C9: for every index and non-empty query, searchDocs returns at most 10
(maxSearchResults) ranked results, while the reported Total equals the
number of all matched entries (files with a positive score) before
truncation. -/
theorem searchDocs_truncation (files : List FileInfo) (q : String) (hq : q ≠ "") :
    (searchDocs files q).Results.length ≤ maxSearchResults ∧
    (searchDocs files q).Total =
      (files.filter
        (fun f => decide (0 < calculateScore (normalizeQuery q) f.Normalized))).length := by
  have hperm := sorted_perm_searchMatches files (normalizeQuery q)
  constructor
  · simp only [searchDocs, if_neg hq]
    split
    · simp
    · next h => omega
  · simp only [searchDocs, if_neg hq]
    rw [hperm.length_eq, searchMatches_length]

/-- Witness: fifteen matching files yield Total 15 with 10 ranked results. -/
theorem searchDocs_truncation_witness :
    ("doc" ≠ "") ∧
    (searchDocs c9Files "doc").Results.length ≤ maxSearchResults ∧
    (searchDocs c9Files "doc").Total =
      (c9Files.filter
        (fun f => decide (0 < calculateScore (normalizeQuery "doc") f.Normalized))).length :=
  ⟨by decide, searchDocs_truncation c9Files "doc" (by decide)⟩

theorem mem_searchMatches {files : List FileInfo} {nq : String} {m : SearchMatch}
    (hm : m ∈ searchMatches files nq) :
    ∃ f ∈ files, 0 < calculateScore nq f.Normalized ∧
      m = { Path := f.Filename, Name := f.Name, Score := calculateScore nq f.Normalized,
            Source := sourceStr f.Source } := by
  unfold searchMatches at hm
  rcases List.mem_filterMap.mp hm with ⟨f, hf, heq⟩
  simp only at heq
  split at heq
  · next hpos => exact ⟨f, hf, hpos, by cases heq; rfl⟩
  · cases heq

theorem mem_results_mem_matches {files : List FileInfo} {q : String} {m : SearchMatch}
    (hq : q ≠ "") (hm : m ∈ (searchDocs files q).Results) :
    m ∈ searchMatches files (normalizeQuery q) := by
  have hperm := sorted_perm_searchMatches files (normalizeQuery q)
  simp only [searchDocs, if_neg hq] at hm
  split at hm
  · exact hperm.mem_iff.mp (List.mem_of_mem_take hm)
  · exact hperm.mem_iff.mp hm

/-- C10: every SearchMatch returned by searchDocs has a positive score of
at most 1; it is the calculateScore of a file of the index, equal to 1 for
an exact match, at most 0.8 for a substring match, and at most 0.7
otherwise (the fuzzy rule). -/
theorem searchDocs_score_bounds (files : List FileInfo) (q : String) (m : SearchMatch)
    (hq : q ≠ "") (hm : m ∈ (searchDocs files q).Results) :
    0 < m.Score ∧ m.Score ≤ 1 ∧
    ∃ f ∈ files, m.Score = calculateScore (normalizeQuery q) f.Normalized ∧
      ((f.Normalized = normalizeQuery q ∨ f.Normalized = normalizeQuery q ++ ".md") →
        m.Score = 1) ∧
      (¬(f.Normalized = normalizeQuery q ∨ f.Normalized = normalizeQuery q ++ ".md") →
        goContains f.Normalized (normalizeQuery q) = true → m.Score ≤ 4/5) ∧
      (¬(f.Normalized = normalizeQuery q ∨ f.Normalized = normalizeQuery q ++ ".md") →
        ¬goContains f.Normalized (normalizeQuery q) = true → m.Score ≤ 7/10) := by
  rcases mem_searchMatches (mem_results_mem_matches hq hm) with ⟨f, hf, hpos, rfl⟩
  refine ⟨hpos, calculateScore_le_one _ _, f, hf, rfl, ?_, ?_, ?_⟩
  · intro hex
    exact calculateScore_exact hex
  · intro hnex hc
    exact calculateScore_substring_le hnex hc
  · intro hnex hc
    exact calculateScore_fuzzy_le hnex hc

/-- Witness: the exactly matching entry of c10Files is returned with a
positive score of at most 1. -/
theorem searchDocs_score_bounds_witness :
    ("notes" ≠ "") ∧
    ({ Path := "project-root:notes.md", Name := "notes.md", Score := 1,
       Source := "project-root" } ∈ (searchDocs c10Files "notes").Results) ∧
    (0 < ({ Path := "project-root:notes.md", Name := "notes.md", Score := 1,
            Source := "project-root" } : SearchMatch).Score ∧
     ({ Path := "project-root:notes.md", Name := "notes.md", Score := 1,
        Source := "project-root" } : SearchMatch).Score ≤ 1 ∧
     ∃ f ∈ c10Files,
       ({ Path := "project-root:notes.md", Name := "notes.md", Score := 1,
          Source := "project-root" } : SearchMatch).Score =
         calculateScore (normalizeQuery "notes") f.Normalized ∧
       ((f.Normalized = normalizeQuery "notes" ∨
          f.Normalized = normalizeQuery "notes" ++ ".md") →
         ({ Path := "project-root:notes.md", Name := "notes.md", Score := 1,
            Source := "project-root" } : SearchMatch).Score = 1) ∧
       (¬(f.Normalized = normalizeQuery "notes" ∨
          f.Normalized = normalizeQuery "notes" ++ ".md") →
         goContains f.Normalized (normalizeQuery "notes") = true →
         ({ Path := "project-root:notes.md", Name := "notes.md", Score := 1,
            Source := "project-root" } : SearchMatch).Score ≤ 4/5) ∧
       (¬(f.Normalized = normalizeQuery "notes" ∨
          f.Normalized = normalizeQuery "notes" ++ ".md") →
         ¬goContains f.Normalized (normalizeQuery "notes") = true →
         ({ Path := "project-root:notes.md", Name := "notes.md", Score := 1,
            Source := "project-root" } : SearchMatch).Score ≤ 7/10)) :=
  ⟨by decide, by decide,
   searchDocs_score_bounds c10Files "notes"
     { Path := "project-root:notes.md", Name := "notes.md", Score := 1,
       Source := "project-root" } (by decide) (by decide)⟩

/-! ## The sort of the c3Files matches, evaluated -/

set_option maxRecDepth 200000 in
set_option maxHeartbeats 4000000 in
theorem c3_sorted : goSortSlice searchLess c3Matches.toArray = c3Sorted.toArray := by
  show pdqsortGo searchLess (16+1) c3Matches.toArray 0 16 (bitsLen 16) true true =
    c3Sorted.toArray
  rw [pdqsortGo_stepL searchLess 16 c3Matches.toArray c3Mid.toArray 16 (bitsLen 16) 8 6 false
    (by decide) (by decide) (by decide) (by decide) (by decide) (by decide)]
  rw [pdqsortGo_small searchLess 15 c3Mid.toArray 0 6 (bitsLen 16) true true (by decide)]
  rw [show insertionSortGo searchLess c3Mid.toArray 0 6 = c3Mid.toArray from by decide]
  rw [pdqsortGo_small searchLess 15 c3Mid.toArray 7 16 (bitsLen 16) _ false (by decide)]
  decide

set_option maxRecDepth 200000 in
set_option maxHeartbeats 1000000 in
theorem c3_searchDocs_eq :
    searchDocs c3Files "a" = { Results := c3Sorted.take 10, Total := 16 } := by
  have h1 : searchMatches c3Files (normalizeQuery "a") = c3Matches := by decide
  unfold searchDocs
  rw [if_neg (by decide)]
  simp only [h1, c3_sorted]
  decide

/-- C3 counterexample: a1.md and a4.md obtain equal scores under the query
"a" and a1.md is encountered first, yet searchDocs returns a4.md before
a1.md — the descending-score sort is not stable. -/
theorem searchDocs_tie_order_counterexample :
    calculateScore (normalizeQuery "a") "a1.md" =
      calculateScore (normalizeQuery "a") "a4.md" ∧
    ((searchMatches c3Files (normalizeQuery "a")).map (fun m => m.Name)).indexOf "a1.md" <
      ((searchMatches c3Files (normalizeQuery "a")).map (fun m => m.Name)).indexOf "a4.md" ∧
    ((searchDocs c3Files "a").Results.map (fun m => m.Name)).indexOf "a4.md" <
      ((searchDocs c3Files "a").Results.map (fun m => m.Name)).indexOf "a1.md" := by
  refine ⟨by decide, by decide, ?_⟩
  rw [c3_searchDocs_eq]
  decide

theorem array_get?_mem {α : Type} {xs : Array α} {i : Nat} {x : α}
    (h : xs.get? i = some x) : x ∈ xs.toList := by
  unfold Array.get? at h
  split at h
  · next hlt =>
    cases h
    exact Array.getElem_mem_toList _ hlt
  · cases h

/-- C3 amended: when all files of the index obtain one common score under
the query, searchDocs returns the matches in encounter order (truncated to
maxSearchResults): with a tie across the whole result the sort leaves the
match list unchanged. -/
theorem searchDocs_stable_when_tied (files : List FileInfo) (q : String) (s : ℚ)
    (hq : q ≠ "")
    (hs : ∀ f ∈ files, calculateScore (normalizeQuery q) f.Normalized = s) :
    searchDocs files q =
      { Results := if maxSearchResults < (searchMatches files (normalizeQuery q)).length
            then (searchMatches files (normalizeQuery q)).take maxSearchResults
            else searchMatches files (normalizeQuery q),
        Total := (searchMatches files (normalizeQuery q)).length } := by
  have hms : ∀ m ∈ searchMatches files (normalizeQuery q), m.Score = s := by
    intro m hm
    rcases mem_searchMatches hm with ⟨f, hf, _, rfl⟩
    exact hs f hf
  have H : ∀ i j,
      altIdx searchLess (searchMatches files (normalizeQuery q)).toArray i j = false := by
    intro i j
    unfold altIdx
    cases hx : (searchMatches files (normalizeQuery q)).toArray.get? i with
    | none => rfl
    | some x =>
      cases hy : (searchMatches files (normalizeQuery q)).toArray.get? j with
      | none => rfl
      | some y =>
        have hxm : x ∈ searchMatches files (normalizeQuery q) := by
          have := array_get?_mem hx
          simpa using this
        have hym : y ∈ searchMatches files (normalizeQuery q) := by
          have := array_get?_mem hy
          simpa using this
        show searchLess x y = false
        unfold searchLess
        rw [hms x hxm, hms y hym]
        simp
  have hid := goSortSlice_id searchLess _ H
  unfold searchDocs
  rw [if_neg hq]
  simp only [hid]

/-- Witness: three equal-length tied files are returned in encounter order. -/
theorem searchDocs_stable_when_tied_witness :
    ("a" ≠ "") ∧
    (∀ f ∈ c3wFiles, calculateScore (normalizeQuery "a") f.Normalized = mkRat 4 25) ∧
    searchDocs c3wFiles "a" =
      { Results := if maxSearchResults < (searchMatches c3wFiles (normalizeQuery "a")).length
            then (searchMatches c3wFiles (normalizeQuery "a")).take maxSearchResults
            else searchMatches c3wFiles (normalizeQuery "a"),
        Total := (searchMatches c3wFiles (normalizeQuery "a")).length } :=
  ⟨by decide, by decide,
   searchDocs_stable_when_tied c3wFiles "a" (mkRat 4 25) (by decide) (by decide)⟩

/-! ## Path traversal rejection (SafeResolvePath) -/

/-- C2 amended: for a non-empty relative userPath, SafeResolvePath fails
with PathTraversal exactly when the suffixed and cleaned path contains a
dotdot SUBSTRING, or the relative form from the cleaned base to the
cleaned joined path is undefined or begins with a dotdot segment. -/
theorem SafeResolvePath_traversal_iff (stat : String → StatResult) (base u : String)
    (maxSize : Int) (hu : u ≠ "") (habs : goStartsWith u "/" = false) :
    SafeResolvePath stat base u maxSize = Except.error PathError.traversal ↔
      (goContains (cleanPathGo (withMdSuffix u)) ".." = true ∨
       relEscapes (cleanPathGo base)
         (cleanPathGo (joinPathGo base (cleanPathGo (withMdSuffix u)))) = true) := by
  unfold SafeResolvePath
  rw [if_neg hu]
  rw [if_neg (by simp [habs])]
  by_cases hdd : goContains (cleanPathGo (withMdSuffix u)) ".." = true
  · simp [hdd]
  · rw [if_neg (by simp [hdd])]
    unfold relEscapes
    cases hr : relPathGo (cleanPathGo base)
        (cleanPathGo (joinPathGo base (cleanPathGo (withMdSuffix u)))) with
    | error e => simp [hdd, hr]
    | ok rel =>
      simp only [hr]
      by_cases hsw : goStartsWith rel ".." = true
      · simp [hdd, hsw]
      · rw [if_neg (by simp [hsw])]
        simp only [hsw, false_or]
        cases stat (joinPathGo base (cleanPathGo (withMdSuffix u))) with
        | ok size =>
          constructor
          · intro hcon
            have hcon2 : (if maxSize < size then Except.error PathError.tooLarge
                else Except.ok (joinPathGo base (cleanPathGo (withMdSuffix u)))) =
                Except.error PathError.traversal := hcon
            split at hcon2 <;> simp at hcon2
          · rintro (h | h)
            · exact absurd h hdd
            · simp at h
        | notExist =>
          constructor
          · intro hcon
            simp at hcon
          · rintro (h | h)
            · exact absurd h hdd
            · simp at h
        | otherError =>
          constructor
          · intro hcon
            simp at hcon
          · rintro (h | h)
            · exact absurd h hdd
            · simp at h

/-- C2 counterexample: "a..b" has no dotdot segment after suffixing and
cleaning, and its joined form stays under the base directory, yet
SafeResolvePath rejects it with PathTraversal (the code checks for a
dotdot substring, not a dotdot segment). -/
theorem safeResolve_dotdot_substring_counterexample :
    hasDotDotSegment (cleanPathGo (withMdSuffix "a..b")) = false ∧
    relEscapes (cleanPathGo "/base")
      (cleanPathGo (joinPathGo "/base" (cleanPathGo (withMdSuffix "a..b")))) = false ∧
    SafeResolvePath (fun _ => StatResult.ok 10) "/base" "a..b" 100 =
      Except.error PathError.traversal := by decide

theorem SafeResolvePath_traversal_iff_witness :
    ("a..b" ≠ "") ∧ goStartsWith "a..b" "/" = false ∧
    (SafeResolvePath (fun _ => StatResult.ok 10) "/base" "a..b" 100 =
        Except.error PathError.traversal ↔
      (goContains (cleanPathGo (withMdSuffix "a..b")) ".." = true ∨
       relEscapes (cleanPathGo "/base")
         (cleanPathGo (joinPathGo "/base" (cleanPathGo (withMdSuffix "a..b")))) = true)) :=
  ⟨by decide, by decide,
   SafeResolvePath_traversal_iff (fun _ => StatResult.ok 10) "/base" "a..b" 100
     (by decide) (by decide)⟩

/-! ## Reading a document: source precedence and fallback order -/

theorem readDocLoop_cons (fs : GoFs) (maxSize : Int) (cleanP dir : String) (src : DocSource)
    (rest : List (String × DocSource)) :
    readDocLoop fs maxSize cleanP ((dir, src) :: rest) =
      (match tryReadFrom fs maxSize dir src cleanP with
       | some o => Except.ok o
       | none => readDocLoop fs maxSize cleanP rest) := by
  cases hs : SafeResolvePath fs.stat dir cleanP maxSize with
  | error e => simp only [readDocLoop, tryReadFrom, hs]
  | ok resolved =>
    cases hr : fs.read resolved with
    | none => simp only [readDocLoop, tryReadFrom, hs, hr]
    | some content => simp only [readDocLoop, tryReadFrom, hs, hr]

/-- C5: a source prefix embedded in the path makes readDoc ignore the
explicit source parameter; without any source, readDoc tries commands,
then project-docs, then project-root, returning the first successful
resolve-and-read and a not-found error when all three fail. -/
theorem readDoc_behavior (fs : GoFs) (cfg : ServerConfig) :
    (∀ path s, goContains path ":" = true →
       readDoc fs cfg path (some s) false = readDoc fs cfg path none false) ∧
    (∀ path, goContains path ":" = false →
       readDoc fs cfg path none false =
         (match tryReadFrom fs cfg.maxFileSize cfg.commandsDir DocSource.commands path with
          | some o => Except.ok o
          | none =>
            match tryReadFrom fs cfg.maxFileSize cfg.projectDocsDir
                DocSource.projectDocs path with
            | some o => Except.ok o
            | none =>
              match tryReadFrom fs cfg.maxFileSize cfg.projectRootDir
                  DocSource.projectRoot path with
              | some o => Except.ok o
              | none => Except.error (ReadError.notFoundAnySource path))) := by
  constructor
  · intro path s hc
    simp only [readDoc, hc, ite_true, if_true]
  · intro path hc
    simp only [readDoc, hc, ite_true, ite_false, if_true, if_false, Bool.false_eq_true]
    rw [if_neg (by simp)]
    rw [readDocLoop_cons, readDocLoop_cons, readDocLoop_cons, readDocLoop]

/-- Witness: with only /docs/f.md present, the prefixed read ignores the
explicit parameter and the fallback read succeeds on project-docs. -/
theorem readDoc_behavior_witness :
    goContains "commands:f" ":" = true ∧
    readDoc c5Fs c5Cfg "commands:f" (some "project-docs") false =
      readDoc c5Fs c5Cfg "commands:f" none false ∧
    goContains "f" ":" = false ∧
    readDoc c5Fs c5Cfg "f" none false =
      (match tryReadFrom c5Fs c5Cfg.maxFileSize c5Cfg.commandsDir DocSource.commands "f" with
       | some o => Except.ok o
       | none =>
         match tryReadFrom c5Fs c5Cfg.maxFileSize c5Cfg.projectDocsDir
             DocSource.projectDocs "f" with
         | some o => Except.ok o
         | none =>
           match tryReadFrom c5Fs c5Cfg.maxFileSize c5Cfg.projectRootDir
               DocSource.projectRoot "f" with
           | some o => Except.ok o
           | none => Except.error (ReadError.notFoundAnySource "f")) :=
  ⟨by decide, (readDoc_behavior c5Fs c5Cfg).1 "commands:f" "project-docs" (by decide),
   by decide, (readDoc_behavior c5Fs c5Cfg).2 "f" (by decide)⟩

/-! ## Cached scanner -/

/-- C6: a cancelled or failed underlying scan surfaces its error and leaves
the cache slot untouched; the slot changes only when a successful scan
populates an empty slot with its result. -/
theorem cachedScan_error_preserves (c : Bool) (u : Except ScanError (List FileInfo))
    (st : CacheState) :
    (∀ e, (cachedScan c u st).1 = Except.error e → (cachedScan c u st).2 = st) ∧
    ((cachedScan c u st).2 ≠ st →
      st.slot = none ∧ ∃ files, u = Except.ok files ∧
        cachedScan c u st = (Except.ok files, { slot := some files })) := by
  unfold cachedScan
  cases c with
  | true => exact ⟨fun e h => rfl, fun h => absurd rfl h⟩
  | false =>
    cases hs : st.slot with
    | some files => exact ⟨fun e h => rfl, fun h => absurd rfl h⟩
    | none =>
      cases u with
      | error e => exact ⟨fun e h => rfl, fun h => absurd rfl h⟩
      | ok files => exact ⟨fun e h => Except.noConfusion h, fun h => ⟨rfl, files, rfl, rfl⟩⟩

/-- Witness: a failed scan on an empty cache returns the error and leaves
the slot empty. -/
theorem cachedScan_error_preserves_witness :
    ((cachedScan false (Except.error ScanError.failed) { slot := none }).1 =
      Except.error ScanError.failed) ∧
    (cachedScan false (Except.error ScanError.failed) { slot := none }).2 =
      { slot := none } :=
  ⟨by decide,
   (cachedScan_error_preserves false (Except.error ScanError.failed) { slot := none }).1
     ScanError.failed (by decide)⟩

/-! ## Frontmatter parse failure -/

/-- C8: when a frontmatter block is found between the delimiters, is
non-empty and fails to unmarshal, ParseFrontmatter returns empty metadata
with the ORIGINAL content (delimiters not stripped) and no error. -/
theorem ParseFrontmatter_malformed (yamlParse : String → Option RawFrontmatter)
    (content block stripped : String)
    (hb : fmBlock content = some (block, stripped))
    (hne : 0 < block.length) (hfail : yamlParse block = none) :
    ParseFrontmatter yamlParse content = ({ Description := "", Tags := [] }, content) := by
  unfold ParseFrontmatter
  simp only [hb]
  rw [if_pos hne]
  simp only [hfail]

/-- Witness: a non-empty malformed yaml block leaves the full content,
delimiters included, unchanged. -/
theorem ParseFrontmatter_malformed_witness :
    fmBlock "---\nbad: [\n---\nbody" = some ("bad: [\n", "body") ∧
    0 < ("bad: [\n" : String).length ∧
    ParseFrontmatter (fun _ => none) "---\nbad: [\n---\nbody" =
      ({ Description := "", Tags := [] }, "---\nbad: [\n---\nbody") :=
  ⟨by decide, by decide,
   ParseFrontmatter_malformed (fun _ => none) "---\nbad: [\n---\nbody" "bad: [\n" "body"
     (by decide) (by decide) rfl⟩

/-! ## Relative order of the scoring rules -/

/-- C4 counterexample: the query "test" scores the substring match
"testabcdef.md" LOWER than the fuzzy match "t-e-s-t" — a substring match
does not always score at least as high as a fuzzy match. -/
theorem score_order_counterexample :
    ("testabcdef.md" ≠ "test" ∧ "testabcdef.md" ≠ "test" ++ ".md") ∧
    goContains "testabcdef.md" "test" = true ∧
    ("t-e-s-t" ≠ "test" ∧ "t-e-s-t" ≠ "test" ++ ".md") ∧
    ¬ goContains "t-e-s-t" "test" = true ∧
    calculateScore "test" "testabcdef.md" < calculateScore "test" "t-e-s-t" := by decide

/-- C4 amended: an exact match scores 1 and at least as high as any other
entry scored against the same query; substring matches are capped at 0.8
and fuzzy matches at 0.7 (the per-rule caps hold, but the substring rule
does not dominate the fuzzy rule pointwise). -/
theorem calculateScore_exact_ge (q n1 n2 : String) (h1 : n1 = q ∨ n1 = q ++ ".md") :
    calculateScore q n1 = 1 ∧
    calculateScore q n2 ≤ calculateScore q n1 ∧
    (¬(n2 = q ∨ n2 = q ++ ".md") → goContains n2 q = true →
      calculateScore q n2 ≤ 4/5) ∧
    (¬(n2 = q ∨ n2 = q ++ ".md") → ¬goContains n2 q = true →
      calculateScore q n2 ≤ 7/10) := by
  have he := calculateScore_exact h1
  refine ⟨he, ?_, fun hne hc => calculateScore_substring_le hne hc,
    fun hne hc => calculateScore_fuzzy_le hne hc⟩
  rw [he]
  exact calculateScore_le_one q n2

/-- Witness: "test.md" is exact for "test" and dominates "xtest.md". -/
theorem calculateScore_exact_ge_witness :
    ("test.md" = "test" ∨ "test.md" = "test" ++ ".md") ∧
    (calculateScore "test" "test.md" = 1 ∧
     calculateScore "test" "xtest.md" ≤ calculateScore "test" "test.md" ∧
     (¬("xtest.md" = "test" ∨ "xtest.md" = "test" ++ ".md") →
       goContains "xtest.md" "test" = true →
       calculateScore "test" "xtest.md" ≤ 4/5) ∧
     (¬("xtest.md" = "test" ∨ "xtest.md" = "test" ++ ".md") →
       ¬goContains "xtest.md" "test" = true →
       calculateScore "test" "xtest.md" ≤ 7/10)) :=
  ⟨by decide, calculateScore_exact_ge "test" "test.md" "xtest.md" (by decide)⟩

/-! ## Frontmatter boost -/

/-- C1: for an entry with a positive base filename score, the boosted score
is the base plus the boost sum capped at 1.0, where the sum is 0.5 for a
description substring match plus 0.3 per exactly matching tag and 0.15 per
substring-matching tag; the boosted score of c1File exceeds 1. -/
theorem calculateScoreBoosted_formula (fq mq : String) (f : FileInfo)
    (h : 0 < calculateScore fq f.Normalized) :
    calculateScoreBoosted fq mq f =
      calculateScore fq f.Normalized +
        min ((if goContains (goToLower f.Description) mq then (1/2 : ℚ) else 0) +
             (f.Tags.map (fun tag =>
                if goToLower tag = mq then (3/10 : ℚ)
                else if goContains (goToLower tag) mq then (3/20 : ℚ)
                else 0)).sum) 1 ∧
    1 < calculateScoreBoosted "readme" "readme" c1File := by
  constructor
  · unfold calculateScoreBoosted
    rw [if_pos h]
    unfold applyFrontmatterBoost
    rw [qadd_eq]
    congr 1
    unfold frontmatterBoostSum
    rw [foldl_qadd_eq]
    rw [mkRat_1_2]
    have ht : tagBoost mq = fun tag =>
        (if goToLower tag = mq then (3/10 : ℚ)
         else if goContains (goToLower tag) mq then (3/20 : ℚ) else 0) := by
      funext tag
      unfold tagBoost
      rw [mkRat_3_10, mkRat_3_20]
    rw [ht]
  · decide

/-- Witness: the formula applies to c1File with base score 1 and capped
boost 0.8, giving 1.8. -/
theorem calculateScoreBoosted_formula_witness :
    (0 < calculateScore "readme" c1File.Normalized) ∧
    (calculateScoreBoosted "readme" "readme" c1File =
      calculateScore "readme" c1File.Normalized +
        min ((if goContains (goToLower c1File.Description) "readme" then (1/2 : ℚ) else 0) +
             (c1File.Tags.map (fun tag =>
                if goToLower tag = "readme" then (3/10 : ℚ)
                else if goContains (goToLower tag) "readme" then (3/20 : ℚ)
                else 0)).sum) 1 ∧
     1 < calculateScoreBoosted "readme" "readme" c1File) :=
  ⟨by decide, calculateScoreBoosted_formula "readme" "readme" c1File (by decide)⟩

/-! ## Scanner exclusion invariants -/

theorem treeFiles_shift : ∀ (t : FsTree) (anc : List String),
    treeFiles anc t = (treeFiles [] t).map (fun p => (anc ++ p.1, p.2)) := by
  intro t
  induction t with
  | nil => intro anc; rfl
  | fileCons n sz ct rest ih =>
    intro anc
    simp only [treeFiles, List.map_cons, List.append_nil]
    rw [ih anc]
  | dirCons n ch rest ih1 ih2 =>
    intro anc
    simp only [treeFiles, List.map_append, List.nil_append]
    rw [ih1 (anc ++ [n]), ih1 [n], ih2 anc, List.map_map]
    congr 1
    apply List.map_congr_left
    intro p hp
    simp

theorem walkTree_entries (y : String → Option RawFrontmatter) (ex : List String)
    (src : DocSource) :
    ∀ (t : FsTree) (dirRel dirAbs : String) (f : FileInfo),
      f ∈ walkTree y ex src dirRel dirAbs t →
      f.Source = src ∧ goStartsWith f.Name "." = false ∧
      ∃ p ∈ treeFiles [] t, f.Name = p.2 ∧
        f.Filename = sourceStr src ++ ":" ++
          (p.1 ++ [p.2]).foldl (fun s d => if s = "" then d else s ++ "/" ++ d) dirRel ∧
        f.Path = (p.1 ++ [p.2]).foldl (fun s d => s ++ "/" ++ d) dirAbs ∧
        ∀ d ∈ p.1, goStartsWith d "." = false ∧
          (src = DocSource.projectDocs → shouldExcludeDir ex d = false) := by
  intro t
  induction t with
  | nil => intro dirRel dirAbs f hf; cases hf
  | fileCons n sz ct rest ih =>
    intro dirRel dirAbs f hf
    rw [walkTree] at hf
    rcases List.mem_append.mp hf with hleft | hright
    · by_cases hh : goStartsWith n "." = true
      · rw [if_pos hh] at hleft; cases hleft
      · rw [if_neg hh] at hleft
        by_cases hmd : goEndsWith n ".md" = true
        · rw [if_pos hmd] at hleft
          rcases List.mem_singleton.mp hleft with rfl
          refine ⟨rfl, by simpa using hh, ([], n), List.mem_cons_self _ _, rfl, rfl, rfl, ?_⟩
          intro d hd
          cases hd
        · rw [if_neg hmd] at hleft; cases hleft
    · rcases ih dirRel dirAbs f hright with ⟨hsrc, hname, p, hp, hn, hfn, hpa, hanc⟩
      exact ⟨hsrc, hname, p, List.mem_cons_of_mem _ hp, hn, hfn, hpa, hanc⟩
  | dirCons n ch rest ih1 ih2 =>
    intro dirRel dirAbs f hf
    rw [walkTree] at hf
    rcases List.mem_append.mp hf with hleft | hright
    · by_cases hh : goStartsWith n "." = true
      · rw [if_pos hh] at hleft; cases hleft
      · rw [if_neg hh] at hleft
        by_cases hex : (src = DocSource.projectDocs && shouldExcludeDir ex n) = true
        · rw [if_pos hex] at hleft; cases hleft
        · rw [if_neg hex] at hleft
          rcases ih1 _ _ f hleft with ⟨hsrc, hname, p, hp, hn, hfn, hpa, hanc⟩
          refine ⟨hsrc, hname, (n :: p.1, p.2), ?_, hn, ?_, ?_, ?_⟩
          · simp only [treeFiles, List.nil_append]
            apply List.mem_append_left
            rw [treeFiles_shift ch [n]]
            exact List.mem_map.mpr ⟨p, hp, rfl⟩
          · rw [hfn]
            rw [show (n :: p.1, p.2).1 ++ [(n :: p.1, p.2).2] = n :: (p.1 ++ [p.2]) from rfl]
            rw [List.foldl_cons]
          · rw [hpa]
            rw [show (n :: p.1, p.2).1 ++ [(n :: p.1, p.2).2] = n :: (p.1 ++ [p.2]) from rfl]
            rw [List.foldl_cons]
          · intro d hd
            rcases List.mem_cons.mp hd with rfl | hdp
            · refine ⟨by simpa using hh, ?_⟩
              intro hpd
              cases hse : shouldExcludeDir ex d with
              | false => rfl
              | true => exact absurd (by simp [hpd, hse]) hex
            · exact hanc d hdp
    · rcases ih2 dirRel dirAbs f hright with ⟨hsrc, hname, p, hp, hn, hfn, hpa, hanc⟩
      refine ⟨hsrc, hname, p, ?_, hn, hfn, hpa, hanc⟩
      simp only [treeFiles]
      exact List.mem_append_right _ hp

theorem scanFlat_entries (y : String → Option RawFrontmatter) (src : DocSource)
    (rootAbs : String) :
    ∀ (t : FsTree) (f : FileInfo), f ∈ scanFlat y src rootAbs t →
      f.Source = src ∧ goStartsWith f.Name "." = false := by
  intro t
  induction t with
  | nil => intro f hf; cases hf
  | dirCons n ch rest ih1 ih2 => intro f hf; exact ih2 f hf
  | fileCons n sz ct rest ih =>
    intro f hf
    rw [scanFlat] at hf
    rcases List.mem_append.mp hf with hleft | hright
    · by_cases hh : goStartsWith n "." = true
      · rw [if_pos hh] at hleft; cases hleft
      · rw [if_neg hh] at hleft
        by_cases hmd : goEndsWith n ".md" = true
        · rw [if_pos hmd] at hleft
          rcases List.mem_singleton.mp hleft with rfl
          exact ⟨rfl, by simpa using hh⟩
        · rw [if_neg hmd] at hleft; cases hleft
    · exact ih f hright

theorem scanRecursive_entries (y : String → Option RawFrontmatter) (ex : List String)
    (src : DocSource) (rootName rootAbs : String) (ch : FsTree) (f : FileInfo)
    (hf : f ∈ scanRecursive y ex src rootName rootAbs ch) :
    f.Source = src ∧ goStartsWith f.Name "." = false ∧
    goStartsWith rootName "." = false ∧
    (src = DocSource.projectDocs → shouldExcludeDir ex rootName = false) ∧
    ∃ p ∈ treeFiles [] ch, f.Name = p.2 ∧
      f.Filename = sourceStr src ++ ":" ++
        (p.1 ++ [p.2]).foldl (fun s d => if s = "" then d else s ++ "/" ++ d) "" ∧
      f.Path = (p.1 ++ [p.2]).foldl (fun s d => s ++ "/" ++ d) rootAbs ∧
      ∀ d ∈ p.1, goStartsWith d "." = false ∧
        (src = DocSource.projectDocs → shouldExcludeDir ex d = false) := by
  unfold scanRecursive at hf
  by_cases hh : goStartsWith rootName "." = true
  · rw [if_pos hh] at hf; cases hf
  · rw [if_neg hh] at hf
    by_cases hex : (src = DocSource.projectDocs && shouldExcludeDir ex rootName) = true
    · rw [if_pos hex] at hf; cases hf
    · rw [if_neg hex] at hf
      rcases walkTree_entries y ex src ch "" rootAbs f hf with
        ⟨hsrc, hname, p, hp, hn, hfn, hpa, hanc⟩
      refine ⟨hsrc, hname, by simpa using hh, ?_, p, hp, hn, hfn, hpa, hanc⟩
      intro hpd
      cases hse : shouldExcludeDir ex rootName with
      | false => rfl
      | true => exact absurd (by simp [hpd, hse]) hex

/-- C7: every entry of a scan has a base name that does not start with a
dot, and every project-docs entry is itself located at an unexcluded
place: its Filename and Path are exactly the relative and absolute joins
of a file of the project-docs tree, none of whose ancestor directory
components is excluded (an excluded directory's whole subtree contributes
nothing). -/
theorem scannerScan_excludes (y : String → Option RawFrontmatter) (ex : List String)
    (fs : ScannerFs) :
    ∀ f ∈ scannerScan y ex fs,
      goStartsWith f.Name "." = false ∧
      (f.Source = DocSource.projectDocs →
        ∃ rn ra ch, fs.projectDocsRoot = some (rn, ra, ch) ∧
          shouldExcludeDir ex rn = false ∧
          ∃ p ∈ treeFiles [] ch, f.Name = p.2 ∧
            f.Filename = "project-docs:" ++
              (p.1 ++ [p.2]).foldl (fun s d => if s = "" then d else s ++ "/" ++ d) "" ∧
            f.Path = (p.1 ++ [p.2]).foldl (fun s d => s ++ "/" ++ d) ra ∧
            ∀ d ∈ p.1, shouldExcludeDir ex d = false) := by
  intro f hf
  unfold scannerScan at hf
  rcases List.mem_append.mp hf with hf12 | hf3
  · rcases List.mem_append.mp hf12 with hf1 | hf2
    · cases hc : fs.commandsRoot with
      | none => rw [hc] at hf1; cases hf1
      | some v =>
        rw [hc] at hf1
        rcases v with ⟨rn, ra, ch⟩
        rcases scanRecursive_entries y ex DocSource.commands rn ra ch f hf1 with
          ⟨hsrc, hname, _⟩
        refine ⟨hname, ?_⟩
        intro hpd
        rw [hsrc] at hpd
        cases hpd
    · cases hc : fs.projectDocsRoot with
      | none => rw [hc] at hf2; cases hf2
      | some v =>
        rw [hc] at hf2
        rcases v with ⟨rn, ra, ch⟩
        rcases scanRecursive_entries y ex DocSource.projectDocs rn ra ch f hf2 with
          ⟨hsrc, hname, hroot, hrex, p, hp, hn, hfn, hpa, hanc⟩
        refine ⟨hname, ?_⟩
        intro _
        exact ⟨rn, ra, ch, rfl, hrex rfl, p, hp, hn, hfn, hpa,
          fun d hd => (hanc d hd).2 rfl⟩
  · cases hc : fs.projectRootRoot with
    | none => rw [hc] at hf3; cases hf3
    | some v =>
      rw [hc] at hf3
      rcases v with ⟨ra, ch⟩
      rcases scanFlat_entries y DocSource.projectRoot ra ch f hf3 with ⟨hsrc, hname⟩
      refine ⟨hname, ?_⟩
      intro hpd
      rw [hsrc] at hpd
      cases hpd

/-- Witness: the scan of c7Fs contains exactly the visible entry (the
hidden file and the excluded subtree contribute nothing), and that entry
satisfies the location invariants. -/
theorem scannerScan_excludes_witness :
    scannerScan (fun _ => none) ["node_modules"] c7Fs = [c7Entry] ∧
    (goStartsWith c7Entry.Name "." = false ∧
     (c7Entry.Source = DocSource.projectDocs →
       ∃ rn ra ch, c7Fs.projectDocsRoot = some (rn, ra, ch) ∧
         shouldExcludeDir ["node_modules"] rn = false ∧
         ∃ p ∈ treeFiles [] ch, c7Entry.Name = p.2 ∧
           c7Entry.Filename = "project-docs:" ++
             (p.1 ++ [p.2]).foldl (fun s d => if s = "" then d else s ++ "/" ++ d) "" ∧
           c7Entry.Path = (p.1 ++ [p.2]).foldl (fun s d => s ++ "/" ++ d) ra ∧
           ∀ d ∈ p.1, shouldExcludeDir ["node_modules"] d = false)) :=
  ⟨by decide,
   scannerScan_excludes (fun _ => none) ["node_modules"] c7Fs c7Entry (by decide)⟩
